import Mathlib

/-!
# depth: renderer, summary aggregator and run driver of `cmd/depth/depth.go`

A shallow embedding of the command's pure core:

* `depth.Pkg` is an inductive tree carrying the fields the command reads
  (`Name`, `Internal`, `Test`, `Deps`);
* the `io.Writer` is modelled by the text appended to it: every function that
  writes returns the string it writes, and consecutive writes are concatenated;
* the Go map `map[string]struct{}` used as the visited set is a `Finset String`;
* the counters of `summary` are natural numbers (they start at zero and are
  only incremented, once per distinct name), and so is `indent` (it starts at
  zero and is only incremented, once per level of the tree); `collectSummary64`
  transcribes the aggregator with the counters as wrapping 64-bit integers and
  is shown to agree with the unbounded one while no counter overflows;
* `p.String()`, which belongs to the library type, is a parameter
  `display : Pkg → String` of the renderer;
* the library type `depth.Tree` is a pair of operations `Resolve` and `Root`
  over a type of tree states, so that a Resolver may keep state between roots;
* the JSON encoder belongs to a library: the document of a node is modelled
  from the specification, and its rendering as text is a parameter `render`.
-/

namespace Depth

/-! ## Data model -/

/-- The node type `depth.Pkg`, restricted to the fields read by the command. -/
inductive Pkg where
  | mk (Name : String) (Internal : Bool) (Test : Bool) (Deps : List Pkg) : Pkg

namespace Pkg

/-- Field `Name`. -/
def Name : Pkg → String
  | mk n _ _ _ => n

/-- Field `Internal`. -/
def Internal : Pkg → Bool
  | mk _ i _ _ => i

/-- Field `Test`. -/
def Test : Pkg → Bool
  | mk _ _ t _ => t

/-- Field `Deps`. -/
def Deps : Pkg → List Pkg
  | mk _ _ _ d => d

end Pkg

/-- Constant `outputPadding`. -/
def outputPadding : String := "  "

/-- Constant `outputPrefix`. -/
def outputPrefix : String := "├ "

/-- Constant `outputPrefixLast`. -/
def outputPrefixLast : String := "└ "

/-- The struct `summary`. -/
structure summary where
  numInternal : Nat
  numExternal : Nat
  numTesting : Nat
deriving DecidableEq, Repr

/-- The library function `strings.Repeat` for a non-negative count. -/
def strings.Repeat (s : String) : Nat → String
  | 0 => ""
  | n + 1 => s ++ strings.Repeat s n

/-! ## Summary aggregator -/

mutual
/-- The function `collectSummary`: the summary and the visited set are passed
in and returned. -/
def collectSummary (sum : summary) (pkg : Pkg) (nameSet : Finset String) :
    summary × Finset String :=
  match pkg with
  | Pkg.mk name internal test deps =>
    if name ∈ nameSet then (sum, nameSet)
    else
      let nameSet := insert name nameSet
      let sum := if internal then { sum with numInternal := sum.numInternal + 1 }
                 else { sum with numExternal := sum.numExternal + 1 }
      let sum := if test then { sum with numTesting := sum.numTesting + 1 } else sum
      collectSummaryDeps sum deps nameSet
/-- The loop `for _, p := range deps { collectSummary(sum, p, nameSet) }`, which
occurs both in `collectSummary` and in `writePkgSummary`. -/
def collectSummaryDeps (sum : summary) (deps : List Pkg) (nameSet : Finset String) :
    summary × Finset String :=
  match deps with
  | [] => (sum, nameSet)
  | p :: ps =>
    let r := collectSummary sum p nameSet
    collectSummaryDeps r.1 ps r.2
end

/-- The locals `sum` and `set` of `writePkgSummary` when its loop has ended. -/
def pkgSummary (pkg : Pkg) : summary × Finset String :=
  collectSummaryDeps { numInternal := 0, numExternal := 0, numTesting := 0 } pkg.Deps ∅

/-- The function `writePkgSummary`: the sentence it writes. -/
def writePkgSummary (pkg : Pkg) : String :=
  let sum := (pkgSummary pkg).1
  toString (sum.numInternal + sum.numExternal) ++ " dependencies (" ++
    toString sum.numInternal ++ " internal, " ++
    toString sum.numExternal ++ " external, " ++
    toString sum.numTesting ++ " testing)."

/-! ### The counters as machine integers

`collectSummary` above keeps the counters as unbounded naturals. The
definitions below transcribe the same function with the counters as Go's
64-bit `int`, whose increment wraps; the two agree as long as no counter leaves
the range of `int` (`collectSummary64_refines`). -/

/-- The value of an arithmetic result on Go's 64-bit `int`: the integer wrapped
into the range from -2^63 to 2^63 - 1. -/
def wrapInt64 (x : Int) : Int :=
  (x + 9223372036854775808) % 18446744073709551616 - 9223372036854775808

/-- The struct `summary` with its counters as Go's 64-bit `int`. -/
structure summary64 where
  numInternal : Int
  numExternal : Int
  numTesting : Int
deriving DecidableEq, Repr

mutual
/-- The function `collectSummary` with machine counters: `x++` on an `int`
gives `wrapInt64 (x + 1)`. -/
def collectSummary64 (sum : summary64) (pkg : Pkg) (nameSet : Finset String) :
    summary64 × Finset String :=
  match pkg with
  | Pkg.mk name internal test deps =>
    if name ∈ nameSet then (sum, nameSet)
    else
      let nameSet := insert name nameSet
      let sum := if internal then { sum with numInternal := wrapInt64 (sum.numInternal + 1) }
                 else { sum with numExternal := wrapInt64 (sum.numExternal + 1) }
      let sum := if test then { sum with numTesting := wrapInt64 (sum.numTesting + 1) } else sum
      collectSummaryDeps64 sum deps nameSet
/-- The loop over `deps` with machine counters. -/
def collectSummaryDeps64 (sum : summary64) (deps : List Pkg) (nameSet : Finset String) :
    summary64 × Finset String :=
  match deps with
  | [] => (sum, nameSet)
  | p :: ps =>
    let r := collectSummary64 sum p nameSet
    collectSummaryDeps64 r.1 ps r.2
end

/-- The unbounded counters read as machine counters. -/
def summary.toInt64 (s : summary) : summary64 :=
  { numInternal := s.numInternal, numExternal := s.numExternal, numTesting := s.numTesting }

/-! ## Tree renderer -/

mutual
/-- The function `writePkg`: the text it writes. -/
def writePkg (display : Pkg → String) (p : Pkg) (indent : Nat) (isLast : Bool) : String :=
  match p with
  | Pkg.mk name internal test deps =>
    let pfx := if indent > 0 then (if isLast then outputPrefixLast else outputPrefix) else ""
    let out := strings.Repeat outputPadding indent ++ pfx ++
      display (Pkg.mk name internal test deps) ++ "\n"
    out ++ writePkgDeps display deps indent deps.length 0
/-- The loop of `writePkg` over `p.Deps`, from index `idx` on; `len` is
`len(p.Deps)` and `ds` the children not yet written. -/
def writePkgDeps (display : Pkg → String) (ds : List Pkg) (indent len idx : Nat) : String :=
  match ds with
  | [] => ""
  | d :: rest =>
    writePkg display d (indent + 1) (decide ((idx : Int) = (len : Int) - 1)) ++
      writePkgDeps display rest indent len (idx + 1)
end

/-! ## JSON serializer -/

/-- Modelled from the spec: the JSON documents that the serializer produces,
strings, booleans, arrays and objects with their fields in order. The encoder
is the library `encoding/json`, which is not part of the repository. -/
inductive JSON where
  | str (s : String) : JSON
  | bool (b : Bool) : JSON
  | arr (items : List JSON) : JSON
  | obj (fields : List (String × JSON)) : JSON

mutual
/-- Modelled from the spec: the document of a node, an object with fields for
`name`, `internal`, `test`, and a `children` array of the recursively
serialized children, in their order. The field tags of the library type
`depth.Pkg` are not part of the repository. -/
def toJSON : Pkg → JSON
  | Pkg.mk name internal test deps =>
    JSON.obj [("name", JSON.str name), ("internal", JSON.bool internal),
      ("test", JSON.bool test), ("children", JSON.arr (toJSONList deps))]
/-- Modelled from the spec: the documents of a list of children, in order. -/
def toJSONList : List Pkg → List JSON
  | [] => []
  | p :: ps => toJSON p :: toJSONList ps
end

/-- The function `writePkgJSON`: the text it writes, which is the rendering of
the document of `p` by the library encoder `render` (set to indent by two
spaces). -/
def writePkgJSON (render : JSON → String) (p : Pkg) : String :=
  render (toJSON p)

/-! ## Run driver -/

/-- The library type `depth.Tree` as the command uses it, over a type `σ` of
tree states: `Resolve t pkg` is the call `t.Resolve(pkg)` and gives the tree
left by the call and its error (`none` for nil, else the text of the error);
`Root t` is `*t.Root`. -/
structure Tree (σ : Type) where
  Resolve : σ → String → σ × Option String
  Root : σ → Pkg

/-- The function `handlePkgs`: the text written to standard output and the
error returned (`none` for nil). -/
def handlePkgs {σ : Type} (T : Tree σ) (display : Pkg → String) (render : JSON → String)
    (t : σ) (pkgs : List String) (outputJSON : Bool) : String × Option String :=
  match pkgs with
  | [] => ("", none)
  | pkg :: rest =>
    match T.Resolve t pkg with
    | (_, some err) => ("'" ++ pkg ++ "': FATAL: " ++ err ++ "\n", some err)
    | (t1, none) =>
      if outputJSON then
        let r := handlePkgs T display render t1 rest outputJSON
        (writePkgJSON render (T.Root t1) ++ r.1, r.2)
      else
        let r := handlePkgs T display render t1 rest outputJSON
        (writePkg display (T.Root t1) 0 false ++ writePkgSummary (T.Root t1) ++ r.1, r.2)

/-! ## Notions used to state the properties -/

mutual
/-- The names that occur in the subtree of a node, the node included. -/
def names : Pkg → Finset String
  | Pkg.mk name _ _ deps => insert name (namesDeps deps)
/-- The names that occur in the subtrees of a list of nodes. -/
def namesDeps : List Pkg → Finset String
  | [] => ∅
  | p :: ps => names p ∪ namesDeps ps
end

/-- The total that `writePkgSummary` prints. -/
def summary.total (s : summary) : Nat := s.numInternal + s.numExternal

mutual
/-- The list of nodes met by a depth-first, children-in-order traversal of a
node in which a node whose name was already met (is in `seen`) is skipped
together with its subtree; the second component is the set of names met when
the traversal ends. -/
def visit (seen : Finset String) : Pkg → List Pkg × Finset String
  | Pkg.mk name internal test deps =>
    if name ∈ seen then ([], seen)
    else
      let r := visitDeps (insert name seen) deps
      (Pkg.mk name internal test deps :: r.1, r.2)
/-- The traversal `visit` over a list of siblings, in order. -/
def visitDeps (seen : Finset String) : List Pkg → List Pkg × Finset String
  | [] => ([], seen)
  | p :: ps =>
    let r := visit seen p
    let q := visitDeps r.2 ps
    (r.1 ++ q.1, q.2)
end

mutual
/-- Rewrites the later occurrences of names in a tree: a node that the
traversal `visit` reaches when its name was already met is replaced by a node
of the same name whose flags and children are those of `g` applied to it;
every other node is kept. -/
def replaceLater (g : Pkg → Pkg) (seen : Finset String) : Pkg → Pkg
  | Pkg.mk name internal test deps =>
    if name ∈ seen then
      Pkg.mk name (g (Pkg.mk name internal test deps)).Internal
        (g (Pkg.mk name internal test deps)).Test (g (Pkg.mk name internal test deps)).Deps
    else Pkg.mk name internal test (replaceLaterDeps g (insert name seen) deps)
/-- The rewriting `replaceLater` over a list of siblings, in order. -/
def replaceLaterDeps (g : Pkg → Pkg) (seen : Finset String) : List Pkg → List Pkg
  | [] => []
  | p :: ps => replaceLater g seen p :: replaceLaterDeps g (visit seen p).2 ps
end


mutual
/-- The nodes of the subtree of a node in depth-first pre-order, children in
their given order. -/
def nodes : Pkg → List Pkg
  | Pkg.mk name internal test deps => Pkg.mk name internal test deps :: nodesDeps deps
/-- The nodes of the subtrees of a list of siblings, in depth-first pre-order. -/
def nodesDeps : List Pkg → List Pkg
  | [] => []
  | p :: ps => nodes p ++ nodesDeps ps
end

/-- Repeats add nothing: scanning a list of nodes in order, `seen` holding the
names of the nodes before the current one, every node whose name is already in
`seen` has in its subtree only names that are in `seen`. Applied to the
pre-order list `nodesDeps root.Deps` with `seen` empty, it says that every
proper descendant of the root whose name occurs at an earlier node in
depth-first order has in its subtree only names that occur at earlier nodes. -/
def repeatsAddNothing (seen : Finset String) : List Pkg → Bool
  | [] => true
  | q :: rest =>
    (if q.Name ∈ seen then decide (names q ⊆ seen) else true) &&
      repeatsAddNothing (insert q.Name seen) rest

/-- The lines of a text given as a list of characters: the runs of characters
between newlines. A newline ends a line; characters after the last newline, if
there are any, form a last line. -/
def splitLines : List Char → List (List Char)
  | [] => []
  | c :: cs =>
    if c = '\n' then [] :: splitLines cs
    else
      match splitLines cs with
      | [] => [[c]]
      | l :: ls => (c :: l) :: ls

/-- The lines of a text, without their newlines. -/
def lines (s : String) : List String := (splitLines s.data).map String.mk

/-- The concatenation of a list of texts, in order. -/
def concat : List String → String
  | [] => ""
  | s :: ss => s ++ concat ss

/-- A text is made of complete lines: it is empty or it ends with a newline. -/
def EndsLines (cs : List Char) : Prop := cs = [] ∨ ∃ a, cs = a ++ ['\n']

/-- Modelled from the spec: the first value stored under a key in the fields of
an object, used by the parser `fromJSON`, which the repository does not have. -/
def JSON.field (key : String) : List (String × JSON) → Option JSON
  | [] => none
  | (k, v) :: rest => if k = key then some v else JSON.field key rest

mutual
/-- Modelled from the spec: parsing a document back into a node. The document
must be an object whose fields `name`, `internal`, `test` hold a string and two
booleans and whose field `children` holds an array of documents of nodes. The
repository has no parser. -/
def fromJSON : JSON → Option Pkg
  | JSON.obj fields =>
    match JSON.field "name" fields, JSON.field "internal" fields, JSON.field "test" fields,
      childrenOf fields with
    | some (JSON.str name), some (JSON.bool internal), some (JSON.bool test), some deps =>
      some (Pkg.mk name internal test deps)
    | _, _, _, _ => none
  | _ => none
/-- Modelled from the spec: the nodes parsed from the array stored under the
key `children`; part of the parser `fromJSON`. -/
def childrenOf : List (String × JSON) → Option (List Pkg)
  | [] => none
  | (k, v) :: rest => if k = "children" then fromJSONArr v else childrenOf rest
/-- Modelled from the spec: the nodes parsed from an array of documents; part
of the parser `fromJSON`. -/
def fromJSONArr : JSON → Option (List Pkg)
  | JSON.arr items => fromJSONList items
  | _ => none
/-- Modelled from the spec: the nodes parsed from a list of documents, in
order; part of the parser `fromJSON`. -/
def fromJSONList : List JSON → Option (List Pkg)
  | [] => some []
  | j :: js =>
    match fromJSON j, fromJSONList js with
    | some p, some ps => some (p :: ps)
    | _, _ => none
end

/-- The normal output for a resolved root: the document in JSON mode, the
rendered tree followed by the summary sentence in tree mode. -/
def rootOutput (display : Pkg → String) (render : JSON → String) (outputJSON : Bool)
    (root : Pkg) : String :=
  if outputJSON then writePkgJSON render root
  else writePkg display root 0 false ++ writePkgSummary root

/-- The resolution of one requested root: its name, the error of `t.Resolve`
(`none` for nil) and `*t.Root` after the call. -/
structure Resolution where
  pkg : String
  err : Option String
  root : Pkg

/-- The resolutions of the requested roots in request order, each made in the
tree state left by the one before. -/
def resolvedRoots {σ : Type} (T : Tree σ) (t : σ) : List String → List Resolution
  | [] => []
  | pkg :: rest =>
    { pkg := pkg, err := (T.Resolve t pkg).2, root := T.Root (T.Resolve t pkg).1 } ::
      resolvedRoots T (T.Resolve t pkg).1 rest

/-- A deterministic Resolver: the error and the root that a resolution gives
depend on the requested name only, not on the tree state left by earlier
resolutions. -/
def Deterministic {σ : Type} (T : Tree σ) : Prop :=
  ∀ (t t1 : σ) (pkg : String),
    (T.Resolve t pkg).2 = (T.Resolve t1 pkg).2 ∧
    T.Root (T.Resolve t pkg).1 = T.Root (T.Resolve t1 pkg).1

/-! ## Example trees -/

/-- The diamond of the concrete scenario: `app` depends on `libA` and `libB`,
which both depend on `libC`. -/
def exDiamond : Pkg :=
  Pkg.mk "app" false false
    [Pkg.mk "libA" false false [Pkg.mk "libC" false false []],
     Pkg.mk "libB" true true [Pkg.mk "libC" false false []]]

/-- A tree in which the first occurrence of `X` has no children and a later
occurrence of `X` has the child `Y`. -/
def exShallowFirst : Pkg :=
  Pkg.mk "app" false false
    [Pkg.mk "X" false false [],
     Pkg.mk "X" false false [Pkg.mk "Y" false false []]]

/-- A tree in which the name `X` occurs twice with different flags. -/
def exTwoFlags : Pkg :=
  Pkg.mk "app" false false [Pkg.mk "X" false false [], Pkg.mk "X" true true []]

/-- A tree in which no name is repeated. -/
def exDistinct : Pkg :=
  Pkg.mk "app" false false
    [Pkg.mk "libA" false true [Pkg.mk "libC" true false []],
     Pkg.mk "libB" true true []]

/-- A Resolver whose state is the name last requested: every name but `bad`
resolves, to a root of that name with the single dependency `shared`. -/
def exTree : Tree String where
  Resolve := fun _ pkg => (pkg, if pkg = "bad" then some "cannot find package" else none)
  Root := fun t => Pkg.mk t false false [Pkg.mk "shared" false false []]

/-- A Resolver under which every name resolves: the root `a` has the children
`X` without children and `X` with the child `Y`; every other root has the
single dependency `Y`. -/
def exTreeHidden : Tree String where
  Resolve := fun _ pkg => (pkg, none)
  Root := fun t =>
    if t = "a" then
      Pkg.mk "a" false false
        [Pkg.mk "X" false false [], Pkg.mk "X" false false [Pkg.mk "Y" false false []]]
    else Pkg.mk t false false [Pkg.mk "Y" false false []]

/-! ## Lemmas on the aggregator -/

/-- The counters after a node that is not skipped has been counted. -/
def tally (sum : summary) (internal test : Bool) : summary :=
  let sum := if internal then { sum with numInternal := sum.numInternal + 1 }
             else { sum with numExternal := sum.numExternal + 1 }
  if test then { sum with numTesting := sum.numTesting + 1 } else sum

/-- The machine counters after a node that is not skipped has been counted. -/
def tally64 (sum : summary64) (internal test : Bool) : summary64 :=
  let sum := if internal then { sum with numInternal := wrapInt64 (sum.numInternal + 1) }
             else { sum with numExternal := wrapInt64 (sum.numExternal + 1) }
  if test then { sum with numTesting := wrapInt64 (sum.numTesting + 1) } else sum

/-- A machine counter can take `n` more increments without leaving the range of
`int`. -/
def Room (c : Int) (n : Nat) : Prop :=
  -9223372036854775808 ≤ c ∧ c + n ≤ 9223372036854775807

theorem collectSummary_mk (sum : summary) (name : String) (internal test : Bool)
    (deps : List Pkg) (s : Finset String) :
    collectSummary sum (Pkg.mk name internal test deps) s =
      if name ∈ s then (sum, s)
      else collectSummaryDeps (tally sum internal test) deps (insert name s) := by
  simp only [collectSummary, tally]

theorem collectSummaryDeps_nil (sum : summary) (s : Finset String) :
    collectSummaryDeps sum [] s = (sum, s) := by
  simp only [collectSummaryDeps]

theorem collectSummaryDeps_cons (sum : summary) (p : Pkg) (ps : List Pkg)
    (s : Finset String) :
    collectSummaryDeps sum (p :: ps) s =
      collectSummaryDeps (collectSummary sum p s).1 ps (collectSummary sum p s).2 := by
  simp only [collectSummaryDeps]

theorem tally_total (sum : summary) (internal test : Bool) :
    (tally sum internal test).total = sum.total + 1 := by
  cases internal <;> cases test <;> simp [tally, summary.total] <;> omega

mutual
theorem collectSummary_inv (sum : summary) (pkg : Pkg) (s : Finset String) :
    s ⊆ (collectSummary sum pkg s).2 ∧ (collectSummary sum pkg s).2 ⊆ s ∪ names pkg ∧
    (collectSummary sum pkg s).1.total + s.card
      = sum.total + (collectSummary sum pkg s).2.card := by
  match pkg with
  | Pkg.mk name internal test deps =>
    rw [collectSummary_mk]
    by_cases h : name ∈ s
    · simp [h]
    · simp only [h, if_false, names]
      have ih := collectSummaryDeps_inv (tally sum internal test) deps (insert name s)
      have hc : (insert name s).card = s.card + 1 := Finset.card_insert_of_not_mem h
      rw [tally_total] at ih
      refine ⟨(Finset.subset_insert name s).trans ih.1, ?_, by omega⟩
      intro x hx
      have hx2 := ih.2.1 hx
      simp only [Finset.mem_union, Finset.mem_insert] at hx2 ⊢
      tauto
theorem collectSummaryDeps_inv (sum : summary) (deps : List Pkg) (s : Finset String) :
    s ⊆ (collectSummaryDeps sum deps s).2 ∧
    (collectSummaryDeps sum deps s).2 ⊆ s ∪ namesDeps deps ∧
    (collectSummaryDeps sum deps s).1.total + s.card
      = sum.total + (collectSummaryDeps sum deps s).2.card := by
  match deps with
  | [] => simp [collectSummaryDeps]
  | p :: ps =>
    simp only [collectSummaryDeps, namesDeps]
    have h1 := collectSummary_inv sum p s
    have h2 := collectSummaryDeps_inv (collectSummary sum p s).1 ps (collectSummary sum p s).2
    refine ⟨h1.1.trans h2.1, ?_, by omega⟩
    intro x hx
    have hx2 := h2.2.1 hx
    simp only [Finset.mem_union] at hx2 ⊢
    rcases hx2 with h | h
    · have hx3 := h1.2.1 h
      simp only [Finset.mem_union] at hx3
      tauto
    · tauto
end

/-! ### Repeats that add nothing -/

theorem repeatsAddNothing_cons (s : Finset String) (q : Pkg) (rest : List Pkg) :
    repeatsAddNothing s (q :: rest) =
      ((if q.Name ∈ s then decide (names q ⊆ s) else true) &&
        repeatsAddNothing (insert q.Name s) rest) := rfl

theorem repeatsAddNothing_append (s : Finset String) (l₁ l₂ : List Pkg) :
    repeatsAddNothing s (l₁ ++ l₂) =
      (repeatsAddNothing s l₁ && repeatsAddNothing (s ∪ (l₁.map Pkg.Name).toFinset) l₂) := by
  induction l₁ generalizing s with
  | nil => simp [repeatsAddNothing]
  | cons q l ih =>
    have hs : insert q.Name s ∪ (l.map Pkg.Name).toFinset
        = s ∪ ((q :: l).map Pkg.Name).toFinset := by
      ext x
      simp only [List.map_cons, List.toFinset_cons, Finset.mem_union, Finset.mem_insert]
      tauto
    rw [List.cons_append, repeatsAddNothing_cons, repeatsAddNothing_cons, ih, hs,
      Bool.and_assoc]

mutual
theorem nodes_names (pkg : Pkg) : ((nodes pkg).map Pkg.Name).toFinset = names pkg := by
  match pkg with
  | Pkg.mk name internal test deps =>
    simp only [nodes, names, List.map_cons, List.toFinset_cons, Pkg.Name, nodesDeps_names deps]
theorem nodesDeps_names (deps : List Pkg) :
    ((nodesDeps deps).map Pkg.Name).toFinset = namesDeps deps := by
  match deps with
  | [] => simp [nodesDeps, namesDeps]
  | p :: ps =>
    simp only [nodesDeps, namesDeps, List.map_append, List.toFinset_append, nodes_names p,
      nodesDeps_names ps]
end

mutual
theorem collectSummary_set_of_repeatsAddNothing (sum : summary) (pkg : Pkg)
    (s : Finset String) (h : repeatsAddNothing s (nodes pkg) = true) :
    (collectSummary sum pkg s).2 = s ∪ names pkg := by
  match pkg with
  | Pkg.mk name internal test deps =>
    rw [collectSummary_mk]
    simp only [nodes, repeatsAddNothing_cons, Pkg.Name, Bool.and_eq_true] at h
    by_cases hn : name ∈ s
    · have hsub : names (Pkg.mk name internal test deps) ⊆ s := by
        simpa [hn] using h.1
      simp only [hn, if_true]
      exact (Finset.union_eq_left.mpr hsub).symm
    · simp only [hn, if_false, names]
      rw [collectSummaryDeps_set_of_repeatsAddNothing _ deps _ h.2]
      ext x
      simp only [Finset.mem_union, Finset.mem_insert]
      tauto
theorem collectSummaryDeps_set_of_repeatsAddNothing (sum : summary) (deps : List Pkg)
    (s : Finset String) (h : repeatsAddNothing s (nodesDeps deps) = true) :
    (collectSummaryDeps sum deps s).2 = s ∪ namesDeps deps := by
  match deps with
  | [] => simp [collectSummaryDeps, namesDeps]
  | p :: ps =>
    simp only [nodesDeps, repeatsAddNothing_append, Bool.and_eq_true, nodes_names] at h
    rw [collectSummaryDeps_cons]
    have h1 := collectSummary_set_of_repeatsAddNothing sum p s h.1
    rw [collectSummaryDeps_set_of_repeatsAddNothing _ ps _ (h1 ▸ h.2), h1]
    simp only [namesDeps, Finset.union_assoc]
end

/-! ### The list of first visits -/

theorem visit_mk (name : String) (internal test : Bool) (deps : List Pkg)
    (s : Finset String) :
    visit s (Pkg.mk name internal test deps) =
      if name ∈ s then ([], s)
      else (Pkg.mk name internal test deps :: (visitDeps (insert name s) deps).1,
        (visitDeps (insert name s) deps).2) := by
  simp only [visit]

theorem visitDeps_cons (p : Pkg) (ps : List Pkg) (s : Finset String) :
    visitDeps s (p :: ps) =
      ((visit s p).1 ++ (visitDeps (visit s p).2 ps).1, (visitDeps (visit s p).2 ps).2) := by
  simp only [visitDeps]

mutual
theorem visit_set (sum : summary) (pkg : Pkg) (s : Finset String) :
    (visit s pkg).2 = (collectSummary sum pkg s).2 := by
  match pkg with
  | Pkg.mk name internal test deps =>
    rw [collectSummary_mk, visit_mk]
    by_cases hn : name ∈ s
    · simp only [hn, if_true]
    · simp only [hn, if_false]
      exact visitDeps_set _ deps _
theorem visitDeps_set (sum : summary) (deps : List Pkg) (s : Finset String) :
    (visitDeps s deps).2 = (collectSummaryDeps sum deps s).2 := by
  match deps with
  | [] => simp [collectSummaryDeps, visitDeps]
  | p :: ps =>
    rw [collectSummaryDeps_cons, visitDeps_cons]
    simp only
    rw [visit_set sum p s]
    exact visitDeps_set _ ps _
end

theorem tally_fields (sum : summary) (internal test : Bool) :
    (tally sum internal test).numInternal = sum.numInternal + (if internal then 1 else 0) ∧
    (tally sum internal test).numExternal = sum.numExternal + (if internal then 0 else 1) ∧
    (tally sum internal test).numTesting = sum.numTesting + (if test then 1 else 0) := by
  cases internal <;> cases test <;> simp [tally]

mutual
theorem collectSummary_counts (sum : summary) (pkg : Pkg) (s : Finset String) :
    (collectSummary sum pkg s).1.numInternal
      = sum.numInternal + (visit s pkg).1.countP (fun p => p.Internal) ∧
    (collectSummary sum pkg s).1.numExternal
      = sum.numExternal + (visit s pkg).1.countP (fun p => !p.Internal) ∧
    (collectSummary sum pkg s).1.numTesting
      = sum.numTesting + (visit s pkg).1.countP (fun p => p.Test) := by
  match pkg with
  | Pkg.mk name internal test deps =>
    rw [collectSummary_mk, visit_mk]
    by_cases hn : name ∈ s
    · simp [hn]
    · simp only [hn, if_false]
      have ih := collectSummaryDeps_counts (tally sum internal test) deps (insert name s)
      have ht := tally_fields sum internal test
      rw [ih.1, ih.2.1, ih.2.2, ht.1, ht.2.1, ht.2.2]
      cases internal <;> cases test <;>
        simp [List.countP_cons, Pkg.Internal, Pkg.Test] <;> omega
theorem collectSummaryDeps_counts (sum : summary) (deps : List Pkg) (s : Finset String) :
    (collectSummaryDeps sum deps s).1.numInternal
      = sum.numInternal + (visitDeps s deps).1.countP (fun p => p.Internal) ∧
    (collectSummaryDeps sum deps s).1.numExternal
      = sum.numExternal + (visitDeps s deps).1.countP (fun p => !p.Internal) ∧
    (collectSummaryDeps sum deps s).1.numTesting
      = sum.numTesting + (visitDeps s deps).1.countP (fun p => p.Test) := by
  match deps with
  | [] => simp [collectSummaryDeps, visitDeps]
  | p :: ps =>
    rw [collectSummaryDeps_cons, visitDeps_cons]
    have h1 := collectSummary_counts sum p s
    have h2 := collectSummaryDeps_counts (collectSummary sum p s).1 ps (collectSummary sum p s).2
    rw [visit_set sum p s]
    simp only [List.countP_append]
    omega
end

mutual
theorem visit_nodup (pkg : Pkg) (s : Finset String) :
    ((visit s pkg).1.map Pkg.Name).Nodup ∧
    (∀ x ∈ (visit s pkg).1.map Pkg.Name, x ∉ s ∧ x ∈ (visit s pkg).2) ∧
    s ⊆ (visit s pkg).2 := by
  match pkg with
  | Pkg.mk name internal test deps =>
    rw [visit_mk]
    by_cases hn : name ∈ s
    · simp [hn]
    · simp only [hn, if_false, List.map_cons, List.nodup_cons, List.mem_cons, Pkg.Name]
      have ih := visitDeps_nodup deps (insert name s)
      refine ⟨⟨?_, ih.1⟩, ?_, (Finset.subset_insert name s).trans ih.2.2⟩
      · intro hmem
        exact (ih.2.1 name hmem).1 (Finset.mem_insert_self name s)
      · rintro x (rfl | hx)
        · exact ⟨hn, ih.2.2 (Finset.mem_insert_self _ s)⟩
        · exact ⟨fun hxs => (ih.2.1 x hx).1 (Finset.mem_insert_of_mem hxs), (ih.2.1 x hx).2⟩
theorem visitDeps_nodup (deps : List Pkg) (s : Finset String) :
    ((visitDeps s deps).1.map Pkg.Name).Nodup ∧
    (∀ x ∈ (visitDeps s deps).1.map Pkg.Name, x ∉ s ∧ x ∈ (visitDeps s deps).2) ∧
    s ⊆ (visitDeps s deps).2 := by
  match deps with
  | [] => simp [visitDeps]
  | p :: ps =>
    rw [visitDeps_cons]
    have h1 := visit_nodup p s
    have h2 := visitDeps_nodup ps (visit s p).2
    simp only [List.map_append, List.mem_append]
    refine ⟨List.Nodup.append h1.1 h2.1 ?_, ?_, h1.2.2.trans h2.2.2⟩
    · intro x hx1 hx2
      exact (h2.2.1 x hx2).1 (h1.2.1 x hx1).2
    · rintro x (hx | hx)
      · exact ⟨(h1.2.1 x hx).1, h2.2.2 (h1.2.1 x hx).2⟩
      · exact ⟨fun hxs => (h2.2.1 x hx).1 (h1.2.2 hxs), (h2.2.1 x hx).2⟩
end

mutual
theorem collectSummary_replaceLater (g : Pkg → Pkg) (sum : summary) (pkg : Pkg)
    (s : Finset String) :
    collectSummary sum (replaceLater g s pkg) s = collectSummary sum pkg s := by
  match pkg with
  | Pkg.mk name internal test deps =>
    by_cases hn : name ∈ s
    · simp only [replaceLater, hn, if_true, collectSummary_mk]
    · simp only [replaceLater, hn, if_false, collectSummary_mk]
      exact collectSummaryDeps_replaceLater g _ deps _
theorem collectSummaryDeps_replaceLater (g : Pkg → Pkg) (sum : summary) (deps : List Pkg)
    (s : Finset String) :
    collectSummaryDeps sum (replaceLaterDeps g s deps) s = collectSummaryDeps sum deps s := by
  match deps with
  | [] => simp [replaceLaterDeps]
  | p :: ps =>
    simp only [replaceLaterDeps, collectSummaryDeps_cons]
    rw [collectSummary_replaceLater g sum p s, visit_set sum p s]
    exact collectSummaryDeps_replaceLater g _ ps _
end

/-! ### Monotonicity, skipped nodes, repeated lists -/

theorem collectSummary_of_mem (sum : summary) (pkg : Pkg) (s : Finset String)
    (h : pkg.Name ∈ s) : collectSummary sum pkg s = (sum, s) := by
  cases pkg with
  | mk name internal test deps =>
    rw [collectSummary_mk]
    simp only [Pkg.Name] at h
    simp only [h, if_true]

mutual
theorem collectSummary_mono (sum : summary) (pkg : Pkg) (s : Finset String) :
    sum.numInternal ≤ (collectSummary sum pkg s).1.numInternal ∧
    sum.numExternal ≤ (collectSummary sum pkg s).1.numExternal ∧
    sum.numTesting ≤ (collectSummary sum pkg s).1.numTesting ∧
    (sum.numTesting ≤ sum.numInternal + sum.numExternal →
      (collectSummary sum pkg s).1.numTesting
        ≤ (collectSummary sum pkg s).1.numInternal + (collectSummary sum pkg s).1.numExternal) := by
  match pkg with
  | Pkg.mk name internal test deps =>
    rw [collectSummary_mk]
    by_cases hn : name ∈ s
    · simp only [hn, if_true, le_refl, true_and]
      exact fun h => h
    · simp only [hn, if_false]
      have ih := collectSummaryDeps_mono (tally sum internal test) deps (insert name s)
      have ht := tally_fields sum internal test
      refine ⟨by omega, by omega, by omega, fun h => ih.2.2.2 ?_⟩
      rw [ht.1, ht.2.1, ht.2.2]
      cases internal <;> cases test <;> simp <;> omega
theorem collectSummaryDeps_mono (sum : summary) (deps : List Pkg) (s : Finset String) :
    sum.numInternal ≤ (collectSummaryDeps sum deps s).1.numInternal ∧
    sum.numExternal ≤ (collectSummaryDeps sum deps s).1.numExternal ∧
    sum.numTesting ≤ (collectSummaryDeps sum deps s).1.numTesting ∧
    (sum.numTesting ≤ sum.numInternal + sum.numExternal →
      (collectSummaryDeps sum deps s).1.numTesting
        ≤ (collectSummaryDeps sum deps s).1.numInternal
          + (collectSummaryDeps sum deps s).1.numExternal) := by
  match deps with
  | [] =>
    rw [collectSummaryDeps_nil]
    exact ⟨le_refl _, le_refl _, le_refl _, fun h => h⟩
  | p :: ps =>
    rw [collectSummaryDeps_cons]
    have h1 := collectSummary_mono sum p s
    have h2 := collectSummaryDeps_mono (collectSummary sum p s).1 ps (collectSummary sum p s).2
    exact ⟨h1.1.trans h2.1, h1.2.1.trans h2.2.1, h1.2.2.1.trans h2.2.2.1,
      fun h => h2.2.2.2 (h1.2.2.2 h)⟩
end

theorem collectSummary_name_mem (sum : summary) (pkg : Pkg) (s : Finset String) :
    pkg.Name ∈ (collectSummary sum pkg s).2 := by
  cases pkg with
  | mk name internal test deps =>
    rw [collectSummary_mk]
    by_cases hn : name ∈ s
    · simp [hn, Pkg.Name]
    · simp only [hn, if_false, Pkg.Name]
      exact (collectSummaryDeps_inv _ deps _).1 (Finset.mem_insert_self name s)

theorem collectSummaryDeps_append (sum : summary) (l₁ l₂ : List Pkg) (s : Finset String) :
    collectSummaryDeps sum (l₁ ++ l₂) s =
      collectSummaryDeps (collectSummaryDeps sum l₁ s).1 l₂ (collectSummaryDeps sum l₁ s).2 := by
  induction l₁ generalizing sum s with
  | nil => rw [List.nil_append, collectSummaryDeps_nil]
  | cons p ps ih => rw [List.cons_append, collectSummaryDeps_cons, collectSummaryDeps_cons, ih]

theorem collectSummaryDeps_names_mem (sum : summary) (deps : List Pkg) (s : Finset String) :
    ∀ c ∈ deps, c.Name ∈ (collectSummaryDeps sum deps s).2 := by
  induction deps generalizing sum s with
  | nil => intro c hc; cases hc
  | cons p ps ih =>
    intro c hc
    rw [collectSummaryDeps_cons]
    rcases List.mem_cons.mp hc with rfl | hc
    · exact (collectSummaryDeps_inv _ ps _).1 (collectSummary_name_mem sum c s)
    · exact ih _ _ c hc

theorem collectSummaryDeps_of_all_mem (sum : summary) (deps : List Pkg) (s : Finset String)
    (h : ∀ c ∈ deps, c.Name ∈ s) : collectSummaryDeps sum deps s = (sum, s) := by
  induction deps with
  | nil => rw [collectSummaryDeps_nil]
  | cons p ps ih =>
    rw [collectSummaryDeps_cons, collectSummary_of_mem sum p s (h p (List.mem_cons_self _ _))]
    exact ih (fun c hc => h c (List.mem_cons_of_mem _ hc))

/-! ### Trees without repeated names -/

mutual
theorem visit_of_nodup (pkg : Pkg) (s : Finset String)
    (hnd : ((nodes pkg).map Pkg.Name).Nodup) (hdis : ∀ q ∈ nodes pkg, q.Name ∉ s) :
    visit s pkg = (nodes pkg, s ∪ names pkg) := by
  match pkg with
  | Pkg.mk name internal test deps =>
    have hn : name ∉ s := hdis (Pkg.mk name internal test deps) (by simp [nodes])
    simp only [nodes, List.map_cons, List.nodup_cons, Pkg.Name] at hnd
    rw [visit_mk]
    simp only [hn, if_false]
    rw [visitDeps_of_nodup deps (insert name s) hnd.2 (by
      intro q hq hmem
      rcases Finset.mem_insert.mp hmem with h | h
      · exact hnd.1 (h ▸ List.mem_map_of_mem Pkg.Name hq)
      · exact hdis q (by simp only [nodes, List.mem_cons]; exact Or.inr hq) h)]
    simp only [nodes, names, Prod.mk.injEq, true_and]
    ext x
    simp only [Finset.mem_union, Finset.mem_insert]
    tauto
theorem visitDeps_of_nodup (deps : List Pkg) (s : Finset String)
    (hnd : ((nodesDeps deps).map Pkg.Name).Nodup) (hdis : ∀ q ∈ nodesDeps deps, q.Name ∉ s) :
    visitDeps s deps = (nodesDeps deps, s ∪ namesDeps deps) := by
  match deps with
  | [] => simp [visitDeps, nodesDeps, namesDeps]
  | p :: ps =>
    simp only [nodesDeps, List.map_append] at hnd
    have hsplit := List.nodup_append.mp hnd
    rw [visitDeps_cons, visit_of_nodup p s hsplit.1
      (fun q hq => hdis q (by simp only [nodesDeps, List.mem_append]; exact Or.inl hq))]
    simp only
    rw [visitDeps_of_nodup ps (s ∪ names p) hsplit.2.1 (by
      intro q hq hmem
      rcases Finset.mem_union.mp hmem with h | h
      · exact hdis q (by simp only [nodesDeps, List.mem_append]; exact Or.inr hq) h
      · rw [← nodes_names p, List.mem_toFinset] at h
        exact hsplit.2.2 h (List.mem_map_of_mem Pkg.Name hq))]
    simp only [nodesDeps, namesDeps, Finset.union_assoc]
end

/-! ### Machine counters -/

theorem wrapInt64_of_inRange (x : Int) (h1 : -9223372036854775808 ≤ x)
    (h2 : x ≤ 9223372036854775807) : wrapInt64 x = x := by
  unfold wrapInt64
  omega

theorem collectSummary64_mk (sum : summary64) (name : String) (internal test : Bool)
    (deps : List Pkg) (s : Finset String) :
    collectSummary64 sum (Pkg.mk name internal test deps) s =
      if name ∈ s then (sum, s)
      else collectSummaryDeps64 (tally64 sum internal test) deps (insert name s) := by
  simp only [collectSummary64, tally64]

theorem collectSummaryDeps64_nil (sum : summary64) (s : Finset String) :
    collectSummaryDeps64 sum [] s = (sum, s) := by
  simp only [collectSummaryDeps64]

theorem collectSummaryDeps64_cons (sum : summary64) (p : Pkg) (ps : List Pkg)
    (s : Finset String) :
    collectSummaryDeps64 sum (p :: ps) s =
      collectSummaryDeps64 (collectSummary64 sum p s).1 ps (collectSummary64 sum p s).2 := by
  simp only [collectSummaryDeps64]

mutual
theorem collectSummary64_set (sum : summary64) (pkg : Pkg) (s : Finset String) :
    (collectSummary64 sum pkg s).2 = (visit s pkg).2 := by
  match pkg with
  | Pkg.mk name internal test deps =>
    rw [collectSummary64_mk, visit_mk]
    by_cases hn : name ∈ s
    · simp only [hn, if_true]
    · simp only [hn, if_false]
      exact collectSummaryDeps64_set _ deps _
theorem collectSummaryDeps64_set (sum : summary64) (deps : List Pkg) (s : Finset String) :
    (collectSummaryDeps64 sum deps s).2 = (visitDeps s deps).2 := by
  match deps with
  | [] => simp [collectSummaryDeps64, visitDeps]
  | p :: ps =>
    rw [collectSummaryDeps64_cons, visitDeps_cons]
    simp only
    rw [collectSummary64_set sum p s]
    exact collectSummaryDeps64_set _ ps _
end

theorem tally64_bounds (sum : summary64) (internal test : Bool)
    (hi : Room sum.numInternal 1) (he : Room sum.numExternal 1) (ht : Room sum.numTesting 1) :
    (sum.numInternal ≤ (tally64 sum internal test).numInternal ∧
      (tally64 sum internal test).numInternal ≤ sum.numInternal + 1) ∧
    (sum.numExternal ≤ (tally64 sum internal test).numExternal ∧
      (tally64 sum internal test).numExternal ≤ sum.numExternal + 1) ∧
    (sum.numTesting ≤ (tally64 sum internal test).numTesting ∧
      (tally64 sum internal test).numTesting ≤ sum.numTesting + 1) := by
  unfold Room at hi he ht
  have h1 := wrapInt64_of_inRange (sum.numInternal + 1) (by omega) (by omega)
  have h2 := wrapInt64_of_inRange (sum.numExternal + 1) (by omega) (by omega)
  have h3 := wrapInt64_of_inRange (sum.numTesting + 1) (by omega) (by omega)
  cases internal <;> cases test <;> simp [tally64, h1, h2, h3]

mutual
theorem collectSummary64_bounds (sum : summary64) (pkg : Pkg) (s : Finset String)
    (hi : Room sum.numInternal (nodes pkg).length)
    (he : Room sum.numExternal (nodes pkg).length)
    (ht : Room sum.numTesting (nodes pkg).length) :
    (sum.numInternal ≤ (collectSummary64 sum pkg s).1.numInternal ∧
      (collectSummary64 sum pkg s).1.numInternal ≤ sum.numInternal + (nodes pkg).length) ∧
    (sum.numExternal ≤ (collectSummary64 sum pkg s).1.numExternal ∧
      (collectSummary64 sum pkg s).1.numExternal ≤ sum.numExternal + (nodes pkg).length) ∧
    (sum.numTesting ≤ (collectSummary64 sum pkg s).1.numTesting ∧
      (collectSummary64 sum pkg s).1.numTesting ≤ sum.numTesting + (nodes pkg).length) := by
  match pkg with
  | Pkg.mk name internal test deps =>
    have hlen : (nodes (Pkg.mk name internal test deps)).length
        = (nodesDeps deps).length + 1 := by simp [nodes]
    rw [hlen] at hi he ht ⊢
    unfold Room at hi he ht
    rw [collectSummary64_mk]
    by_cases hn : name ∈ s
    · simp only [hn, if_true]
      omega
    · simp only [hn, if_false]
      have hb := tally64_bounds sum internal test
        ⟨by omega, by omega⟩ ⟨by omega, by omega⟩ ⟨by omega, by omega⟩
      have ih := collectSummaryDeps64_bounds (tally64 sum internal test) deps (insert name s)
        ⟨by omega, by omega⟩ ⟨by omega, by omega⟩ ⟨by omega, by omega⟩
      omega
theorem collectSummaryDeps64_bounds (sum : summary64) (deps : List Pkg) (s : Finset String)
    (hi : Room sum.numInternal (nodesDeps deps).length)
    (he : Room sum.numExternal (nodesDeps deps).length)
    (ht : Room sum.numTesting (nodesDeps deps).length) :
    (sum.numInternal ≤ (collectSummaryDeps64 sum deps s).1.numInternal ∧
      (collectSummaryDeps64 sum deps s).1.numInternal
        ≤ sum.numInternal + (nodesDeps deps).length) ∧
    (sum.numExternal ≤ (collectSummaryDeps64 sum deps s).1.numExternal ∧
      (collectSummaryDeps64 sum deps s).1.numExternal
        ≤ sum.numExternal + (nodesDeps deps).length) ∧
    (sum.numTesting ≤ (collectSummaryDeps64 sum deps s).1.numTesting ∧
      (collectSummaryDeps64 sum deps s).1.numTesting
        ≤ sum.numTesting + (nodesDeps deps).length) := by
  match deps with
  | [] =>
    rw [collectSummaryDeps64_nil]
    simp [nodesDeps]
  | p :: ps =>
    have hlen : (nodesDeps (p :: ps)).length = (nodes p).length + (nodesDeps ps).length := by
      simp [nodesDeps]
    rw [hlen] at hi he ht ⊢
    unfold Room at hi he ht
    rw [collectSummaryDeps64_cons]
    have h1 := collectSummary64_bounds sum p s
      ⟨by omega, by omega⟩ ⟨by omega, by omega⟩ ⟨by omega, by omega⟩
    have h2 := collectSummaryDeps64_bounds (collectSummary64 sum p s).1 ps
      (collectSummary64 sum p s).2
      ⟨by omega, by omega⟩ ⟨by omega, by omega⟩ ⟨by omega, by omega⟩
    omega
end

theorem tally64_toInt64 (sum : summary) (internal test : Bool)
    (hi : (sum.numInternal : Int) + 1 ≤ 9223372036854775807)
    (he : (sum.numExternal : Int) + 1 ≤ 9223372036854775807)
    (ht : (sum.numTesting : Int) + 1 ≤ 9223372036854775807) :
    tally64 sum.toInt64 internal test = (tally sum internal test).toInt64 := by
  have h1 := wrapInt64_of_inRange ((sum.numInternal : Int) + 1) (by omega) (by omega)
  have h2 := wrapInt64_of_inRange ((sum.numExternal : Int) + 1) (by omega) (by omega)
  have h3 := wrapInt64_of_inRange ((sum.numTesting : Int) + 1) (by omega) (by omega)
  cases internal <;> cases test <;> simp [tally64, tally, summary.toInt64, h1, h2, h3]

mutual
theorem collectSummary64_refines (sum : summary) (pkg : Pkg) (s : Finset String)
    (hi : (sum.numInternal : Int) + (nodes pkg).length ≤ 9223372036854775807)
    (he : (sum.numExternal : Int) + (nodes pkg).length ≤ 9223372036854775807)
    (ht : (sum.numTesting : Int) + (nodes pkg).length ≤ 9223372036854775807) :
    collectSummary64 sum.toInt64 pkg s
      = ((collectSummary sum pkg s).1.toInt64, (collectSummary sum pkg s).2) := by
  match pkg with
  | Pkg.mk name internal test deps =>
    have hlen : (nodes (Pkg.mk name internal test deps)).length
        = (nodesDeps deps).length + 1 := by simp [nodes]
    rw [hlen] at hi he ht
    rw [collectSummary64_mk, collectSummary_mk]
    by_cases hn : name ∈ s
    · simp only [hn, if_true]
    · simp only [hn, if_false]
      rw [tally64_toInt64 sum internal test (by omega) (by omega) (by omega)]
      have hf := tally_fields sum internal test
      apply collectSummaryDeps64_refines
      · rw [hf.1]; split <;> push_cast <;> omega
      · rw [hf.2.1]; split <;> push_cast <;> omega
      · rw [hf.2.2]; split <;> push_cast <;> omega
theorem collectSummaryDeps64_refines (sum : summary) (deps : List Pkg) (s : Finset String)
    (hi : (sum.numInternal : Int) + (nodesDeps deps).length ≤ 9223372036854775807)
    (he : (sum.numExternal : Int) + (nodesDeps deps).length ≤ 9223372036854775807)
    (ht : (sum.numTesting : Int) + (nodesDeps deps).length ≤ 9223372036854775807) :
    collectSummaryDeps64 sum.toInt64 deps s
      = ((collectSummaryDeps sum deps s).1.toInt64, (collectSummaryDeps sum deps s).2) := by
  match deps with
  | [] => rw [collectSummaryDeps64_nil, collectSummaryDeps_nil]
  | p :: ps =>
    have hlen : (nodesDeps (p :: ps)).length = (nodes p).length + (nodesDeps ps).length := by
      simp [nodesDeps]
    rw [hlen] at hi he ht
    rw [collectSummaryDeps64_cons, collectSummaryDeps_cons]
    have hb := collectSummary64_bounds sum.toInt64 p s
      ⟨by simp only [summary.toInt64]; omega, by simp only [summary.toInt64]; omega⟩
      ⟨by simp only [summary.toInt64]; omega, by simp only [summary.toInt64]; omega⟩
      ⟨by simp only [summary.toInt64]; omega, by simp only [summary.toInt64]; omega⟩
    have h1 := collectSummary64_refines sum p s (by omega) (by omega) (by omega)
    rw [h1] at hb ⊢
    simp only [summary.toInt64] at hb
    exact collectSummaryDeps64_refines _ ps _ (by omega) (by omega) (by omega)
end

/-! ## Lemmas on the renderer -/

theorem writePkg_mk (display : Pkg → String) (name : String) (internal test : Bool)
    (deps : List Pkg) (indent : Nat) (isLast : Bool) :
    writePkg display (Pkg.mk name internal test deps) indent isLast =
      strings.Repeat outputPadding indent ++
        (if indent > 0 then (if isLast then outputPrefixLast else outputPrefix) else "") ++
        display (Pkg.mk name internal test deps) ++ "\n" ++
        writePkgDeps display deps indent deps.length 0 := by
  simp only [writePkg]

theorem writePkgDeps_nil (display : Pkg → String) (indent len idx : Nat) :
    writePkgDeps display [] indent len idx = "" := by
  simp only [writePkgDeps]

theorem writePkgDeps_cons (display : Pkg → String) (d : Pkg) (rest : List Pkg)
    (indent len idx : Nat) :
    writePkgDeps display (d :: rest) indent len idx =
      writePkg display d (indent + 1) (decide ((idx : Int) = (len : Int) - 1)) ++
        writePkgDeps display rest indent len (idx + 1) := by
  simp only [writePkgDeps]

theorem writePkgDeps_eq_concat (display : Pkg → String) (ds : List Pkg)
    (indent len idx : Nat) :
    writePkgDeps display ds indent len idx =
      concat ((ds.enumFrom idx).map fun ic =>
        writePkg display ic.2 (indent + 1) (decide ((ic.1 : Int) = (len : Int) - 1))) := by
  induction ds generalizing idx with
  | nil => simp [writePkgDeps_nil, concat]
  | cons d rest ih =>
    rw [writePkgDeps_cons, ih (idx + 1)]
    simp [List.enumFrom_cons, concat]

theorem splitLines_newline_cons (t : List Char) :
    splitLines ('\n' :: t) = [] :: splitLines t := by
  simp [splitLines]

theorem splitLines_cons_ne_nil (c : Char) (cs : List Char) : splitLines (c :: cs) ≠ [] := by
  simp only [splitLines]
  split
  · simp
  · split <;> simp

theorem splitLines_cons_of_ne (c : Char) (cs : List Char) (hc : c ≠ '\n') :
    splitLines (c :: cs) =
      match splitLines cs with
      | [] => [[c]]
      | l :: ls => (c :: l) :: ls := by
  simp only [splitLines, hc, if_false]

theorem splitLines_append_newline (a t : List Char) :
    splitLines (a ++ '\n' :: t) = splitLines (a ++ ['\n']) ++ splitLines t := by
  induction a with
  | nil => simp [splitLines]
  | cons c a ih =>
    by_cases hc : c = '\n'
    · subst hc
      simp only [List.cons_append, splitLines_newline_cons, ih, List.cons_append]
    · have hne : splitLines (a ++ ['\n']) ≠ [] := by
        cases a with
        | nil => simp [splitLines]
        | cons x xs => exact splitLines_cons_ne_nil x _
      cases hsp : splitLines (a ++ ['\n']) with
      | nil => exact absurd hsp hne
      | cons l ls =>
        rw [hsp] at ih
        rw [List.cons_append, List.cons_append, splitLines_cons_of_ne _ _ hc,
          splitLines_cons_of_ne _ _ hc, ih, hsp]
        rfl

theorem splitLines_line (a : List Char) (h : '\n' ∉ a) : splitLines (a ++ ['\n']) = [a] := by
  induction a with
  | nil => simp [splitLines]
  | cons c a ih =>
    have hc : c ≠ '\n' := fun e => h (e ▸ List.mem_cons_self _ _)
    have ha : '\n' ∉ a := fun e => h (List.mem_cons_of_mem _ e)
    simp [splitLines, hc, ih ha]

theorem splitLines_append (s t : List Char) (h : EndsLines s) :
    splitLines (s ++ t) = splitLines s ++ splitLines t := by
  rcases h with rfl | ⟨a, rfl⟩
  · simp [splitLines]
  · rw [List.append_assoc, List.singleton_append, splitLines_append_newline]

theorem EndsLines.append {s t : List Char} (hs : EndsLines s) (ht : EndsLines t) :
    EndsLines (s ++ t) := by
  rcases ht with rfl | ⟨b, rfl⟩
  · simpa using hs
  · exact Or.inr ⟨s ++ b, by simp⟩

theorem lines_append (s t : String) (h : EndsLines s.data) :
    lines (s ++ t) = lines s ++ lines t := by
  simp only [lines, String.data_append, splitLines_append _ _ h, List.map_append]

theorem lines_line (a : String) (h : '\n' ∉ a.data) : lines (a ++ "\n") = [a] := by
  have hd : ("\n" : String).data = ['\n'] := rfl
  simp only [lines, String.data_append, hd, splitLines_line _ h, List.map_cons, List.map_nil]

theorem endsLines_line (a : String) : EndsLines (a ++ "\n").data := by
  have hd : ("\n" : String).data = ['\n'] := rfl
  exact Or.inr ⟨a.data, by rw [String.data_append, hd]⟩

theorem repeat_no_newline (n : Nat) : '\n' ∉ (strings.Repeat outputPadding n).data := by
  induction n with
  | zero => decide
  | succ n ih =>
    simp only [strings.Repeat, String.data_append, List.mem_append, not_or]
    exact ⟨by decide, ih⟩

mutual
theorem writePkg_endsLines (display : Pkg → String) (p : Pkg) (indent : Nat) (isLast : Bool) :
    EndsLines (writePkg display p indent isLast).data := by
  match p with
  | Pkg.mk name internal test deps =>
    rw [writePkg_mk, String.data_append]
    exact (endsLines_line _).append (writePkgDeps_endsLines display deps indent deps.length 0)
theorem writePkgDeps_endsLines (display : Pkg → String) (ds : List Pkg)
    (indent len idx : Nat) : EndsLines (writePkgDeps display ds indent len idx).data := by
  match ds with
  | [] => exact Or.inl (by rw [writePkgDeps_nil])
  | d :: rest =>
    rw [writePkgDeps_cons, String.data_append]
    exact (writePkg_endsLines display d _ _).append (writePkgDeps_endsLines display rest _ _ _)
end

theorem connector_eq (d : Nat) (isLast : Bool) :
    (if d > 0 then (if isLast then outputPrefixLast else outputPrefix) else "") =
      (if d = 0 then "" else if isLast then "└ " else "├ ") := by
  cases d <;> simp [outputPrefixLast, outputPrefix]

theorem connector_no_newline (d : Nat) (isLast : Bool) :
    '\n' ∉ (if d = 0 then "" else if isLast then "└ " else "├ " : String).data := by
  cases d with
  | zero => simp
  | succ n => cases isLast <;> simp

theorem writePkg_eq (display : Pkg → String) (p : Pkg) (d : Nat) (isLast : Bool) :
    writePkg display p d isLast =
      strings.Repeat "  " d ++ (if d = 0 then "" else if isLast then "└ " else "├ ") ++
        display p ++ "\n" ++ writePkgDeps display p.Deps d p.Deps.length 0 := by
  cases p with
  | mk name internal test deps =>
    rw [writePkg_mk, connector_eq]
    rfl

theorem ownLine_no_newline (display : Pkg → String) (p : Pkg) (d : Nat) (isLast : Bool)
    (h : '\n' ∉ (display p).data) :
    '\n' ∉ (strings.Repeat "  " d ++ (if d = 0 then "" else if isLast then "└ " else "├ ") ++
      display p).data := by
  simp only [String.data_append, List.mem_append, not_or]
  exact ⟨⟨repeat_no_newline d, connector_no_newline d isLast⟩, h⟩

theorem lines_concat (l : List String) (h : ∀ s ∈ l, EndsLines s.data) :
    lines (concat l) = (l.map lines).flatten := by
  induction l with
  | nil => rfl
  | cons s ss ih =>
    rw [concat, lines_append _ _ (h s (List.mem_cons_self _ _)),
      ih (fun t ht => h t (List.mem_cons_of_mem _ ht))]
    simp

mutual
theorem writePkg_lines_length (display : Pkg → String) (p : Pkg) (d : Nat) (isLast : Bool)
    (h : ∀ q ∈ nodes p, '\n' ∉ (display q).data) :
    (lines (writePkg display p d isLast)).length = (nodes p).length := by
  match p with
  | Pkg.mk name internal test deps =>
    rw [writePkg_eq, lines_append _ _ (endsLines_line _),
      lines_line _ (ownLine_no_newline display _ d isLast
        (h _ (by simp only [nodes, List.mem_cons, true_or])))]
    simp only [Pkg.Deps, nodes, List.length_append, List.length_cons, List.length_nil]
    rw [writePkgDeps_lines_length display deps d deps.length 0
      (fun q hq => h q (by simp only [nodes, List.mem_cons]; exact Or.inr hq))]
    omega
theorem writePkgDeps_lines_length (display : Pkg → String) (ds : List Pkg)
    (d len idx : Nat) (h : ∀ q ∈ nodesDeps ds, '\n' ∉ (display q).data) :
    (lines (writePkgDeps display ds d len idx)).length = (nodesDeps ds).length := by
  match ds with
  | [] => simp [writePkgDeps_nil, nodesDeps, lines, splitLines]
  | c :: rest =>
    rw [writePkgDeps_cons, lines_append _ _ (writePkg_endsLines display c _ _)]
    simp only [nodesDeps, List.length_append]
    rw [writePkg_lines_length display c _ _
        (fun q hq => h q (by simp only [nodesDeps, List.mem_append]; exact Or.inl hq)),
      writePkgDeps_lines_length display rest d len (idx + 1)
        (fun q hq => h q (by simp only [nodesDeps, List.mem_append]; exact Or.inr hq))]
end

theorem repeat_eq_spaces (d : Nat) :
    strings.Repeat "  " d = String.mk (List.replicate (2 * d) ' ') := by
  induction d with
  | zero => rfl
  | succ n ih =>
    apply String.ext
    have hd : ("  " : String).data = [' ', ' '] := rfl
    rw [strings.Repeat, String.data_append, ih, hd]
    simp [Nat.mul_succ, List.replicate_succ]

theorem nodesDeps_eq_flatten (ds : List Pkg) : nodesDeps ds = (ds.map nodes).flatten := by
  induction ds with
  | nil => simp [nodesDeps]
  | cons c cs ih => simp [nodesDeps, ih]

theorem filter_last_index (n : Nat) :
    (List.range (n + 1)).filter (fun i => decide (i + 1 = n + 1)) = [n] := by
  rw [List.range_succ, List.filter_append]
  have h1 : (List.range n).filter (fun i => decide (i + 1 = n + 1)) = [] := by
    rw [List.filter_eq_nil_iff]
    intro a ha
    have := List.mem_range.mp ha
    simp only [decide_eq_true_eq]
    omega
  rw [h1]
  simp

/-! ## Lemmas on the run driver -/

theorem handlePkgs_nil {σ : Type} (T : Tree σ) (display : Pkg → String)
    (render : JSON → String) (t : σ) (outputJSON : Bool) :
    handlePkgs T display render t [] outputJSON = ("", none) := rfl

theorem handlePkgs_cons_err {σ : Type} (T : Tree σ) (display : Pkg → String)
    (render : JSON → String) (t : σ) (pkg : String) (rest : List String) (outputJSON : Bool)
    (err : String) (h : (T.Resolve t pkg).2 = some err) :
    handlePkgs T display render t (pkg :: rest) outputJSON
      = ("'" ++ pkg ++ "': FATAL: " ++ err ++ "\n", some err) := by
  rcases hr : T.Resolve t pkg with ⟨t1, e⟩
  rw [hr] at h
  simp only at h
  subst h
  simp only [handlePkgs, hr]

theorem handlePkgs_cons_ok {σ : Type} (T : Tree σ) (display : Pkg → String)
    (render : JSON → String) (t : σ) (pkg : String) (rest : List String) (outputJSON : Bool)
    (h : (T.Resolve t pkg).2 = none) :
    handlePkgs T display render t (pkg :: rest) outputJSON
      = (rootOutput display render outputJSON (T.Root (T.Resolve t pkg).1) ++
          (handlePkgs T display render (T.Resolve t pkg).1 rest outputJSON).1,
         (handlePkgs T display render (T.Resolve t pkg).1 rest outputJSON).2) := by
  rcases hr : T.Resolve t pkg with ⟨t1, e⟩
  rw [hr] at h
  simp only at h
  subst h
  cases outputJSON <;> simp [handlePkgs, hr, rootOutput]

theorem concat_append (l₁ l₂ : List String) : concat (l₁ ++ l₂) = concat l₁ ++ concat l₂ := by
  induction l₁ with
  | nil => simp [concat]
  | cons a l ih => simp [concat, ih, String.append_assoc]

theorem resolvedRoots_take {σ : Type} (T : Tree σ) (t : σ) (pkgs : List String) (n : Nat) :
    resolvedRoots T t (pkgs.take n) = (resolvedRoots T t pkgs).take n := by
  induction pkgs generalizing t n with
  | nil => simp [resolvedRoots]
  | cons p rest ih =>
    cases n with
    | zero => simp [resolvedRoots]
    | succ n => simp [resolvedRoots, ih]

theorem handlePkgs_first_failure {σ : Type} (T : Tree σ) (display : Pkg → String)
    (render : JSON → String) (outputJSON : Bool) (pkgs : List String) :
    ∀ (t : σ) (i : Nat) (pkg err : String) (root : Pkg),
      (∀ e ∈ (resolvedRoots T t pkgs).take i, e.err = none) →
      (resolvedRoots T t pkgs)[i]? = some { pkg := pkg, err := some err, root := root } →
      pkgs[i]? = some pkg ∧
      handlePkgs T display render t pkgs outputJSON =
        (concat (((resolvedRoots T t pkgs).take i).map
            fun e => rootOutput display render outputJSON e.root) ++
          ("'" ++ pkg ++ "': FATAL: " ++ err ++ "\n"), some err) := by
  induction pkgs with
  | nil =>
    intro t i pkg err root _ hi
    simp [resolvedRoots] at hi
  | cons p rest ih =>
    intro t i pkg err root hpre hi
    cases i with
    | zero =>
      simp only [resolvedRoots, List.getElem?_cons_zero, Option.some.injEq,
        Resolution.mk.injEq] at hi
      obtain ⟨rfl, herr, _⟩ := hi
      refine ⟨by simp, ?_⟩
      rw [handlePkgs_cons_err T display render t p rest outputJSON err herr]
      simp [concat]
    | succ i =>
      simp only [resolvedRoots, List.getElem?_cons_succ] at hi
      have hp : (T.Resolve t p).2 = none := by
        have := hpre { pkg := p, err := (T.Resolve t p).2, root := T.Root (T.Resolve t p).1 }
          (by simp [resolvedRoots])
        simpa using this
      have hpre2 : ∀ e ∈ (resolvedRoots T (T.Resolve t p).1 rest).take i, e.err = none := by
        intro e he
        exact hpre e (by simp only [resolvedRoots, List.take_succ_cons, List.mem_cons]
                         exact Or.inr he)
      obtain ⟨h1, h2⟩ := ih (T.Resolve t p).1 i pkg err root hpre2 hi
      refine ⟨by simpa using h1, ?_⟩
      rw [handlePkgs_cons_ok T display render t p rest outputJSON hp, h2]
      simp [resolvedRoots, concat, String.append_assoc]

theorem handlePkgs_no_failure {σ : Type} (T : Tree σ) (display : Pkg → String)
    (render : JSON → String) (outputJSON : Bool) (pkgs : List String) :
    ∀ (t : σ), (∀ e ∈ resolvedRoots T t pkgs, e.err = none) →
      handlePkgs T display render t pkgs outputJSON =
        (concat ((resolvedRoots T t pkgs).map
          fun e => rootOutput display render outputJSON e.root), none) := by
  induction pkgs with
  | nil =>
    intro t _
    simp [handlePkgs_nil, resolvedRoots, concat]
  | cons p rest ih =>
    intro t hall
    have hp : (T.Resolve t p).2 = none := by
      have := hall { pkg := p, err := (T.Resolve t p).2, root := T.Root (T.Resolve t p).1 }
        (by simp [resolvedRoots])
      simpa using this
    have hrest : ∀ e ∈ resolvedRoots T (T.Resolve t p).1 rest, e.err = none := by
      intro e he
      exact hall e (by simp only [resolvedRoots, List.mem_cons]; exact Or.inr he)
    rw [handlePkgs_cons_ok T display render t p rest outputJSON hp, ih _ hrest]
    simp [resolvedRoots, concat]

theorem handlePkgs_deterministic {σ : Type} (T : Tree σ) (display : Pkg → String)
    (render : JSON → String) (outputJSON : Bool) (t : σ) (hdet : Deterministic T)
    (pkgs : List String) (hok : ∀ pkg ∈ pkgs, (T.Resolve t pkg).2 = none) :
    ∀ t1 : σ, handlePkgs T display render t1 pkgs outputJSON =
      (concat (pkgs.map fun pkg =>
        rootOutput display render outputJSON (T.Root (T.Resolve t pkg).1)), none) := by
  induction pkgs with
  | nil =>
    intro t1
    simp [handlePkgs_nil, concat]
  | cons p rest ih =>
    intro t1
    have hp : (T.Resolve t1 p).2 = none := by
      rw [(hdet t1 t p).1]
      exact hok p (List.mem_cons_self _ _)
    rw [handlePkgs_cons_ok T display render t1 p rest outputJSON hp,
      ih (fun q hq => hok q (List.mem_cons_of_mem _ hq)), (hdet t1 t p).2]
    simp [concat]

/-! ## Lemmas on the serializer -/

theorem toJSONList_eq_map (ps : List Pkg) : toJSONList ps = ps.map toJSON := by
  induction ps with
  | nil => simp [toJSONList]
  | cons p ps ih => simp [toJSONList, ih]

mutual
theorem fromJSON_toJSON (p : Pkg) : fromJSON (toJSON p) = some p := by
  match p with
  | Pkg.mk name internal test deps =>
    simp [toJSON, fromJSON, JSON.field, childrenOf, fromJSONArr, fromJSONList_toJSONList deps]
theorem fromJSONList_toJSONList (ps : List Pkg) : fromJSONList (toJSONList ps) = some ps := by
  match ps with
  | [] => simp [toJSONList, fromJSONList]
  | p :: ps =>
    simp [toJSONList, fromJSONList, fromJSON_toJSON p, fromJSONList_toJSONList ps]
end

/-! ## The claims -/

/-- C1: the summary never counts a name more than once. For every root, the
total printed by `writePkgSummary` (`numInternal + numExternal`) is at most the
number of distinct names among the root's proper descendants, and it equals the
number of names in the visited set when the traversal has ended. -/
theorem summary_total_counts_names_once (root : Pkg) :
    (pkgSummary root).1.numInternal + (pkgSummary root).1.numExternal
        ≤ (namesDeps root.Deps).card ∧
    (pkgSummary root).1.numInternal + (pkgSummary root).1.numExternal
        = (pkgSummary root).2.card := by
  have h := collectSummaryDeps_inv
    { numInternal := 0, numExternal := 0, numTesting := 0 } root.Deps ∅
  have hsub : (pkgSummary root).2 ⊆ namesDeps root.Deps := by
    have h2 := h.2.1
    simpa [pkgSummary] using h2
  have htot : (pkgSummary root).1.total = (pkgSummary root).2.card := by
    have h3 := h.2.2
    simpa [pkgSummary, summary.total] using h3
  simp only [summary.total] at htot
  exact ⟨htot ▸ Finset.card_le_card hsub, htot⟩

/-- C2, as stated, fails: in the tree `app [X [], X [Y]]` the names `X` and `Y`
both occur among the proper descendants of the root, but the second `X` is
skipped together with its child, so the total is 1 while there are 2 distinct
names. -/
theorem total_lt_distinct_names_exShallowFirst :
    (pkgSummary exShallowFirst).1.numInternal + (pkgSummary exShallowFirst).1.numExternal = 1 ∧
    (namesDeps exShallowFirst.Deps).card = 2 ∧
    writePkgSummary exShallowFirst = "1 dependencies (0 internal, 1 external, 0 testing)." ∧
    (pkgSummary exShallowFirst).1.numInternal + (pkgSummary exShallowFirst).1.numExternal
      ≠ (namesDeps exShallowFirst.Deps).card := by
  decide

/-- C2, amended: for every dependency tree in which repeats add nothing (every
proper descendant of the root whose name occurs at an earlier node in
depth-first order has in its subtree only names that occur at earlier nodes),
every name that occurs among the root's proper descendants is in the visited
set, hence contributes exactly 1 whatever the number of nodes it labels, and
the total printed by `writePkgSummary` equals the number of distinct names
among the root's proper descendants. -/
theorem total_eq_distinct_names_of_repeatsAddNothing (root : Pkg)
    (h : repeatsAddNothing ∅ (nodesDeps root.Deps) = true) :
    (pkgSummary root).2 = namesDeps root.Deps ∧
    (pkgSummary root).1.numInternal + (pkgSummary root).1.numExternal
      = (namesDeps root.Deps).card := by
  have hset : (pkgSummary root).2 = namesDeps root.Deps := by
    have h1 := collectSummaryDeps_set_of_repeatsAddNothing
      { numInternal := 0, numExternal := 0, numTesting := 0 } root.Deps ∅ h
    simpa [pkgSummary] using h1
  have h2 := (collectSummaryDeps_inv
    { numInternal := 0, numExternal := 0, numTesting := 0 } root.Deps ∅).2.2
  have htot : (pkgSummary root).1.total = (pkgSummary root).2.card := by
    simpa [pkgSummary, summary.total] using h2
  simp only [summary.total] at htot
  exact ⟨hset, by rw [htot, hset]⟩

/-- Witness for C2 amended: the diamond, in which `libC` labels two nodes. -/
theorem total_eq_distinct_names_of_repeatsAddNothing_witness :
    repeatsAddNothing ∅ (nodesDeps exDiamond.Deps) = true ∧
    ((pkgSummary exDiamond).2 = namesDeps exDiamond.Deps ∧
     (pkgSummary exDiamond).1.numInternal + (pkgSummary exDiamond).1.numExternal
       = (namesDeps exDiamond.Deps).card) :=
  ⟨by decide, total_eq_distinct_names_of_repeatsAddNothing exDiamond (by decide)⟩

/-- C3: let L be the list of the root's descendants met in depth-first,
children-in-order traversal in which a node whose name was already met is
skipped together with its subtree. The names in L are pairwise distinct, and the
summary is: internal = number of nodes of L with Internal true, external =
number with Internal false, testing = number with Test true. Hence the
first-visited occurrence of a name alone decides its classification: replacing
every later occurrence by a node of the same name with any flags (and any
children) leaves the summary unchanged, and the children
[X(internal=false,test=false), X(internal=true,test=true)] give total 1,
internal 0, external 1, testing 0. -/
theorem summary_decided_by_first_visits (root : Pkg) :
    ((visitDeps ∅ root.Deps).1.map Pkg.Name).Nodup ∧
    (pkgSummary root).1.numInternal
      = (visitDeps ∅ root.Deps).1.countP (fun p => p.Internal) ∧
    (pkgSummary root).1.numExternal
      = (visitDeps ∅ root.Deps).1.countP (fun p => !p.Internal) ∧
    (pkgSummary root).1.numTesting
      = (visitDeps ∅ root.Deps).1.countP (fun p => p.Test) ∧
    (∀ g : Pkg → Pkg,
      (pkgSummary (Pkg.mk root.Name root.Internal root.Test
        (replaceLaterDeps g ∅ root.Deps))).1 = (pkgSummary root).1) ∧
    ((pkgSummary exTwoFlags).1.numInternal + (pkgSummary exTwoFlags).1.numExternal = 1 ∧
      (pkgSummary exTwoFlags).1 = { numInternal := 0, numExternal := 1, numTesting := 0 }) := by
  have hc := collectSummaryDeps_counts
    { numInternal := 0, numExternal := 0, numTesting := 0 } root.Deps ∅
  refine ⟨(visitDeps_nodup root.Deps ∅).1, ?_, ?_, ?_, ?_, by decide⟩
  · simpa [pkgSummary] using hc.1
  · simpa [pkgSummary] using hc.2.1
  · simpa [pkgSummary] using hc.2.2
  · intro g
    simp only [pkgSummary, Pkg.Deps]
    rw [collectSummaryDeps_replaceLater]

/-- C4: for the root `app` with children libA (external, not test, child libC)
and libB (internal, test, child libC), `writePkgSummary` reports total 3,
internal 1, external 2, testing 1, written as the single sentence
"3 dependencies (1 internal, 2 external, 1 testing).". -/
theorem writePkgSummary_exDiamond :
    (pkgSummary exDiamond).1.numInternal + (pkgSummary exDiamond).1.numExternal = 3 ∧
    (pkgSummary exDiamond).1 = { numInternal := 1, numExternal := 2, numTesting := 1 } ∧
    writePkgSummary exDiamond = "3 dependencies (1 internal, 2 external, 1 testing)." := by
  decide

/-- C5, as stated, fails: the children of the root are written at depth 1 and
so carry one padding unit before their connector, the grandchildren two. The
text `app`, `├ libA`, `  └ libC`, `└ libB`, `  └ libC` is not what `writePkg`
writes for the diamond. -/
theorem writePkg_exDiamond_not_unpadded :
    writePkg Pkg.Name exDiamond 0 false ≠ "app\n├ libA\n  └ libC\n└ libB\n  └ libC\n" ∧
    lines (writePkg Pkg.Name exDiamond 0 false)
      ≠ ["app", "├ libA", "  └ libC", "└ libB", "  └ libC"] := by
  decide

/-- C5, amended: for the root `app` with children libA (child libC) and libB
(child libC), every display string being the name, `writePkg(w, app, 0, false)`
writes exactly the five lines `app`, `  ├ libA`, `    └ libC`, `  └ libB`,
`    └ libC`, in that order: each line carries as many two-space padding units
as its depth before the connector. -/
theorem writePkg_exDiamond :
    writePkg Pkg.Name exDiamond 0 false
      = "app\n  ├ libA\n    └ libC\n  └ libB\n    └ libC\n" ∧
    lines (writePkg Pkg.Name exDiamond 0 false)
      = ["app", "  ├ libA", "    └ libC", "  └ libB", "    └ libC"] := by
  decide

/-- C6: for every node p, depth d and isLast, `writePkg(w, p, d, isLast)` first
writes d repetitions of the two-character padding, that is 2 * d spaces, then a
connector, then the display string of p, then a newline (and after that the
output of the loop over the children); the connector is empty when d = 0, the
branch glyph when d > 0 and isLast is false, the corner glyph when d > 0 and
isLast is true. In particular isLast is ignored at depth 0, and when the
display string has no newline the first line of the output is padding,
connector, display string. -/
theorem writePkg_first_line (display : Pkg → String) (p : Pkg) (d : Nat) (isLast : Bool) :
    writePkg display p d isLast =
      String.mk (List.replicate (2 * d) ' ') ++
        (if d = 0 then "" else if isLast then "└ " else "├ ") ++
        display p ++ "\n" ++ writePkgDeps display p.Deps d p.Deps.length 0 ∧
    outputPadding = "  " ∧ outputPadding.length = 2 ∧
    strings.Repeat outputPadding d = String.mk (List.replicate (2 * d) ' ') ∧
    (strings.Repeat outputPadding d).length = 2 * d ∧
    writePkg display p 0 true = writePkg display p 0 false ∧
    ('\n' ∉ (display p).data →
      (lines (writePkg display p d isLast)).head? =
        some (String.mk (List.replicate (2 * d) ' ') ++
          (if d = 0 then "" else if isLast then "└ " else "├ ") ++ display p)) := by
  have hpad : strings.Repeat outputPadding d = String.mk (List.replicate (2 * d) ' ') :=
    repeat_eq_spaces d
  refine ⟨?_, rfl, by decide, hpad, ?_, ?_, ?_⟩
  · rw [← repeat_eq_spaces d]
    exact writePkg_eq display p d isLast
  · rw [hpad]
    simp [String.length]
  · rw [writePkg_eq, writePkg_eq]
    rfl
  · intro h
    rw [← repeat_eq_spaces d, writePkg_eq, lines_append _ _ (endsLines_line _),
      lines_line _ (ownLine_no_newline display p d isLast h)]
    rfl

/-- Witness for C6: the first line written for a node named `app` at depth 2,
told it is the last child, is four spaces, the corner glyph and the name; at
depth 1, told it is not the last child, two spaces, the branch glyph and the
name. -/
theorem writePkg_first_line_witness :
    '\n' ∉ (Pkg.Name exDiamond).data ∧
    (lines (writePkg Pkg.Name exDiamond 2 true)).head? = some "    └ app" ∧
    (lines (writePkg Pkg.Name exDiamond 1 false)).head? = some "  ├ app" :=
  ⟨by decide, (writePkg_first_line Pkg.Name exDiamond 2 true).2.2.2.2.2.2 (by decide),
    (writePkg_first_line Pkg.Name exDiamond 1 false).2.2.2.2.2.2 (by decide)⟩

/-- C7: for every node rendered by `writePkg` at depth d, the output after the
node's own line is, for each child in order, the line of that child followed by
the output of the child's own children; the line of the child at index i is d+1
padding units, that is 2 * (d + 1) spaces, then the corner glyph when i is the
last index N-1 and the branch glyph when i < N-1, then the child's display
string. The connector is a function of the index and of N alone. With N >= 1
children exactly one index, N-1, gets the corner glyph. -/
theorem writePkg_child_connectors (display : Pkg → String) (p : Pkg) (d : Nat)
    (isLast : Bool) :
    writePkg display p d isLast =
      String.mk (List.replicate (2 * d) ' ') ++
        (if d = 0 then "" else if isLast then "└ " else "├ ") ++
        display p ++ "\n" ++
      concat (p.Deps.enum.map fun ic =>
        String.mk (List.replicate (2 * (d + 1)) ' ') ++
          (if ic.1 + 1 = p.Deps.length then "└ " else "├ ") ++
          display ic.2 ++ "\n" ++
        writePkgDeps display ic.2.Deps (d + 1) ic.2.Deps.length 0) ∧
    strings.Repeat outputPadding (d + 1) = String.mk (List.replicate (2 * (d + 1)) ' ') ∧
    (p.Deps ≠ [] →
      (p.Deps.enum.filter fun ic => decide (ic.1 + 1 = p.Deps.length)).map Prod.fst
        = [p.Deps.length - 1]) := by
  refine ⟨?_, repeat_eq_spaces (d + 1), ?_⟩
  · rw [← repeat_eq_spaces d, ← repeat_eq_spaces (d + 1), writePkg_eq, writePkgDeps_eq_concat]
    congr 2
    apply List.map_congr_left
    intro ic _
    rw [writePkg_eq]
    have hb : (decide ((ic.1 : Int) = (p.Deps.length : Int) - 1)) =
        decide (ic.1 + 1 = p.Deps.length) := by
      apply decide_eq_decide.mpr
      omega
    rw [hb]
    by_cases hi : ic.1 + 1 = p.Deps.length <;> simp [hi]
  · intro hne
    have hfm : (p.Deps.enum.filter fun ic => decide (ic.1 + 1 = p.Deps.length)).map Prod.fst
        = (p.Deps.enum.map Prod.fst).filter fun i => decide (i + 1 = p.Deps.length) := by
      rw [List.filter_map]
      rfl
    rw [hfm, List.enum_map_fst]
    obtain ⟨n, hn⟩ : ∃ n, p.Deps.length = n + 1 :=
      Nat.exists_eq_succ_of_ne_zero (fun h0 => hne (List.length_eq_zero.mp h0))
    rw [hn]
    exact filter_last_index n

/-- Witness for C7: the diamond rendered at depth 1. The lines of its two
children carry four spaces, then the branch glyph for `libA` at index 0 and the
corner glyph for `libB` at index 1. -/
theorem writePkg_child_connectors_witness :
    exDiamond.Deps ≠ [] ∧
    (exDiamond.Deps.enum.filter fun ic => decide (ic.1 + 1 = exDiamond.Deps.length)).map
      Prod.fst = [exDiamond.Deps.length - 1] ∧
    writePkg Pkg.Name exDiamond 1 false =
      "  ├ app\n" ++
      concat ["    ├ libA\n" ++ "      └ libC\n", "    └ libB\n" ++ "      └ libC\n"] :=
  ⟨by simp [exDiamond, Pkg.Deps],
    (writePkg_child_connectors Pkg.Name exDiamond 1 false).2.2 (by simp [exDiamond, Pkg.Deps]),
    (writePkg_child_connectors Pkg.Name exDiamond 1 false).1⟩

/-- C8: for every node whose children are empty, `writePkg` at depth 0 writes
the node's display string followed by a newline and nothing else, with no
padding and no connector glyph before it; when the display string has no
newline this is exactly one line, the display string. -/
theorem writePkg_leaf_depth_zero (display : Pkg → String) (name : String)
    (internal test isLast : Bool) :
    writePkg display (Pkg.mk name internal test []) 0 isLast
      = display (Pkg.mk name internal test []) ++ "\n" ∧
    ('\n' ∉ (display (Pkg.mk name internal test [])).data →
      lines (writePkg display (Pkg.mk name internal test []) 0 isLast)
        = [display (Pkg.mk name internal test [])]) := by
  have h : writePkg display (Pkg.mk name internal test []) 0 isLast
      = display (Pkg.mk name internal test []) ++ "\n" := by
    rw [writePkg_mk, writePkgDeps_nil]
    simp [strings.Repeat]
  refine ⟨h, fun hn => ?_⟩
  rw [h, lines_line _ hn]

/-- Witness for C8: a leaf named `app`. -/
theorem writePkg_leaf_depth_zero_witness :
    '\n' ∉ (Pkg.Name (Pkg.mk "app" false false [])).data ∧
    lines (writePkg Pkg.Name (Pkg.mk "app" false false []) 0 true)
      = [Pkg.Name (Pkg.mk "app" false false [])] :=
  ⟨by decide, (writePkg_leaf_depth_zero Pkg.Name "app" false false true).2 (by decide)⟩

/-- C9: `writePkg` applies no deduplication. The output of a node is its own
line followed by the concatenation of the outputs of its children at depth+1,
in their given order (the child at the last index being told it is last), so
the lines appear in depth-first pre-order; and for every tree whose display
strings contain no newline, the number of lines written equals the number of
nodes of the tree, repeated names included. -/
theorem writePkg_no_dedup (display : Pkg → String) (p : Pkg) (d : Nat) (isLast : Bool) :
    writePkg display p d isLast =
      strings.Repeat "  " d ++ (if d = 0 then "" else if isLast then "└ " else "├ ") ++
        display p ++ "\n" ++
      concat (p.Deps.enum.map fun ic =>
        writePkg display ic.2 (d + 1) (decide (ic.1 + 1 = p.Deps.length))) ∧
    nodes p = p :: (p.Deps.map nodes).flatten ∧
    ((∀ q ∈ nodes p, '\n' ∉ (display q).data) →
      (lines (writePkg display p d isLast)).length = (nodes p).length ∧
      lines (writePkg display p d isLast) =
        (strings.Repeat "  " d ++ (if d = 0 then "" else if isLast then "└ " else "├ ") ++
          display p) ::
        (p.Deps.enum.map fun ic =>
          lines (writePkg display ic.2 (d + 1) (decide (ic.1 + 1 = p.Deps.length)))).flatten) := by
  have hs : writePkg display p d isLast =
      strings.Repeat "  " d ++ (if d = 0 then "" else if isLast then "└ " else "├ ") ++
        display p ++ "\n" ++
      concat (p.Deps.enum.map fun ic =>
        writePkg display ic.2 (d + 1) (decide (ic.1 + 1 = p.Deps.length))) := by
    rw [writePkg_eq, writePkgDeps_eq_concat]
    congr 2
    apply List.map_congr_left
    intro ic _
    have hb : (decide ((ic.1 : Int) = (p.Deps.length : Int) - 1)) =
        decide (ic.1 + 1 = p.Deps.length) := by
      apply decide_eq_decide.mpr
      omega
    rw [hb]
  refine ⟨hs, ?_, fun h => ⟨writePkg_lines_length display p d isLast h, ?_⟩⟩
  · cases p with
    | mk name internal test deps =>
      simp only [nodes, Pkg.Deps, nodesDeps_eq_flatten]
  · have hp : p ∈ nodes p := by
      cases p with
      | mk name internal test deps => simp [nodes]
    rw [hs, lines_append _ _ (endsLines_line _),
      lines_line _ (ownLine_no_newline display p d isLast (h p hp)), lines_concat]
    · simp [List.map_map, Function.comp_def]
    · intro s hsm
      obtain ⟨ic, _, rfl⟩ := List.mem_map.mp hsm
      exact writePkg_endsLines display _ _ _

/-- Witness for C9: the diamond has five nodes and is rendered in five lines,
`libC` twice. -/
theorem writePkg_no_dedup_witness :
    (∀ q ∈ nodes exDiamond, '\n' ∉ (Pkg.Name q).data) ∧
    ((lines (writePkg Pkg.Name exDiamond 0 false)).length = (nodes exDiamond).length ∧
      lines (writePkg Pkg.Name exDiamond 0 false) =
        (strings.Repeat "  " 0 ++ (if 0 = 0 then "" else if false then "└ " else "├ ") ++
          Pkg.Name exDiamond) ::
        (exDiamond.Deps.enum.map fun ic =>
          lines (writePkg Pkg.Name ic.2 (0 + 1)
            (decide (ic.1 + 1 = exDiamond.Deps.length)))).flatten) :=
  ⟨by decide, (writePkg_no_dedup Pkg.Name exDiamond 0 false).2.2 (by decide)⟩

/-- C10: the root is never counted in the summary. The counts and the sentence
produced by `writePkgSummary` depend only on the root's children, not on the
root's own name, Internal flag or Test flag, and a root with no children yields
total 0, internal 0, external 0, testing 0. -/
theorem summary_excludes_root (name name' : String) (internal internal' test test' : Bool)
    (deps : List Pkg) :
    (pkgSummary (Pkg.mk name internal test deps)).1
      = (pkgSummary (Pkg.mk name' internal' test' deps)).1 ∧
    writePkgSummary (Pkg.mk name internal test deps)
      = writePkgSummary (Pkg.mk name' internal' test' deps) ∧
    (pkgSummary (Pkg.mk name internal test [])).1
      = { numInternal := 0, numExternal := 0, numTesting := 0 } ∧
    (pkgSummary (Pkg.mk name internal test [])).1.numInternal
      + (pkgSummary (Pkg.mk name internal test [])).1.numExternal = 0 ∧
    writePkgSummary (Pkg.mk name internal test [])
      = "0 dependencies (0 internal, 0 external, 0 testing)." := by
  refine ⟨rfl, rfl, ?_, ?_, ?_⟩
  · simp [pkgSummary, Pkg.Deps, collectSummaryDeps]
  · simp [pkgSummary, Pkg.Deps, collectSummaryDeps]
  · simp only [writePkgSummary, pkgSummary, Pkg.Deps, collectSummaryDeps]
    decide

/-- C11: for every dependency tree, the total stated in the summary sentence
equals the stated internal count plus the stated external count: the sentence
is made of four numbers, total, internal, external and testing, in that order,
and the first is the sum of the second and the third. -/
theorem summary_sentence_total (root : Pkg) :
    ∃ total internal external testing : Nat,
      writePkgSummary root =
        toString total ++ " dependencies (" ++ toString internal ++ " internal, " ++
          toString external ++ " external, " ++ toString testing ++ " testing)." ∧
      total = internal + external ∧
      internal = (pkgSummary root).1.numInternal ∧
      external = (pkgSummary root).1.numExternal ∧
      testing = (pkgSummary root).1.numTesting :=
  ⟨(pkgSummary root).1.numInternal + (pkgSummary root).1.numExternal,
    (pkgSummary root).1.numInternal, (pkgSummary root).1.numExternal,
    (pkgSummary root).1.numTesting, rfl, rfl, rfl, rfl, rfl⟩

/-- C16: for every summary state, visited set and node whose name is already in
the visited set, `collectSummary` leaves the three counters and the visited set
unchanged, whatever the flags of the node and whatever its subtree contains. -/
theorem collectSummary_skips_visited (sum : summary) (pkg : Pkg) (nameSet : Finset String)
    (h : pkg.Name ∈ nameSet) : collectSummary sum pkg nameSet = (sum, nameSet) :=
  collectSummary_of_mem sum pkg nameSet h

/-- Witness for C16: a node `X` with flags set and a child `Y`, met when `X` is
already in the visited set. -/
theorem collectSummary_skips_visited_witness :
    (Pkg.mk "X" true true [Pkg.mk "Y" false true []]).Name ∈ ({"X"} : Finset String) ∧
    collectSummary { numInternal := 1, numExternal := 2, numTesting := 3 }
        (Pkg.mk "X" true true [Pkg.mk "Y" false true []]) {"X"}
      = ({ numInternal := 1, numExternal := 2, numTesting := 3 }, {"X"}) :=
  ⟨by decide, collectSummary_skips_visited _ _ _ (by decide)⟩

/-- C17, as stated, fails on the machine counters: from the state with
numInternal = numTesting = 9223372036854775807, the largest `int`, counting an
internal test node `X` wraps both counters to -9223372036854775808, so
`collectSummary` has decreased them. -/
theorem collectSummary64_wraps_at_max :
    collectSummary64
        { numInternal := 9223372036854775807, numExternal := 0,
          numTesting := 9223372036854775807 }
        (Pkg.mk "X" true true []) ∅
      = ({ numInternal := -9223372036854775808, numExternal := 0,
           numTesting := -9223372036854775808 }, {"X"}) ∧
    ¬ ((9223372036854775807 : Int) ≤
      (collectSummary64
        { numInternal := 9223372036854775807, numExternal := 0,
          numTesting := 9223372036854775807 }
        (Pkg.mk "X" true true []) ∅).1.numInternal) ∧
    ¬ ((9223372036854775807 : Int) ≤
      (collectSummary64
        { numInternal := 9223372036854775807, numExternal := 0,
          numTesting := 9223372036854775807 }
        (Pkg.mk "X" true true []) ∅).1.numTesting) := by
  decide

/-- C17, amended: for every dependency tree the testing count of the summary
is at most the total; `collectSummary` only ever adds names to the visited set,
from every state; and it never decreases any of the three counters from a state
in which each counter has room for as many increments as the subtree has nodes
(it is at least -2^63 and, increased by the number of nodes, at most 2^63 - 1).
For a root with at most 2^63 - 1 proper descendants the machine counters of the
summary are the unbounded ones. -/
theorem summary_testing_le_total (root : Pkg) :
    (pkgSummary root).1.numTesting
      ≤ (pkgSummary root).1.numInternal + (pkgSummary root).1.numExternal ∧
    (∀ (sum : summary64) (pkg : Pkg) (nameSet : Finset String),
      nameSet ⊆ (collectSummary64 sum pkg nameSet).2) ∧
    (∀ (sum : summary64) (pkg : Pkg) (nameSet : Finset String),
      Room sum.numInternal (nodes pkg).length →
      Room sum.numExternal (nodes pkg).length →
      Room sum.numTesting (nodes pkg).length →
      sum.numInternal ≤ (collectSummary64 sum pkg nameSet).1.numInternal ∧
      sum.numExternal ≤ (collectSummary64 sum pkg nameSet).1.numExternal ∧
      sum.numTesting ≤ (collectSummary64 sum pkg nameSet).1.numTesting) ∧
    (((nodesDeps root.Deps).length : Int) ≤ 9223372036854775807 →
      collectSummaryDeps64 { numInternal := 0, numExternal := 0, numTesting := 0 } root.Deps ∅
        = ((pkgSummary root).1.toInt64, (pkgSummary root).2)) := by
  refine ⟨?_, ?_, ?_, ?_⟩
  · exact (collectSummaryDeps_mono
      { numInternal := 0, numExternal := 0, numTesting := 0 } root.Deps ∅).2.2.2 (Nat.zero_le _)
  · intro sum pkg nameSet
    rw [collectSummary64_set]
    exact (visit_nodup pkg nameSet).2.2
  · intro sum pkg nameSet hi he ht
    have h := collectSummary64_bounds sum pkg nameSet hi he ht
    exact ⟨h.1.1, h.2.1.1, h.2.2.1⟩
  · intro hn
    have h := collectSummaryDeps64_refines
      { numInternal := 0, numExternal := 0, numTesting := 0 } root.Deps ∅
      (by simpa using hn) (by simpa using hn) (by simpa using hn)
    simpa [pkgSummary, summary.toInt64] using h

/-- Witness for C17 amended: the diamond, from counters 5, 7 and 2, and its
summary from zero. -/
theorem summary_testing_le_total_witness :
    Room 5 (nodes exDiamond).length ∧ Room 7 (nodes exDiamond).length ∧
    Room 2 (nodes exDiamond).length ∧
    ((5 : Int) ≤ (collectSummary64 { numInternal := 5, numExternal := 7, numTesting := 2 }
        exDiamond ∅).1.numInternal ∧
      (7 : Int) ≤ (collectSummary64 { numInternal := 5, numExternal := 7, numTesting := 2 }
        exDiamond ∅).1.numExternal ∧
      (2 : Int) ≤ (collectSummary64 { numInternal := 5, numExternal := 7, numTesting := 2 }
        exDiamond ∅).1.numTesting) ∧
    ((nodesDeps exDiamond.Deps).length : Int) ≤ 9223372036854775807 ∧
    collectSummaryDeps64 { numInternal := 0, numExternal := 0, numTesting := 0 }
        exDiamond.Deps ∅
      = ((pkgSummary exDiamond).1.toInt64, (pkgSummary exDiamond).2) :=
  ⟨⟨by decide, by decide⟩, ⟨by decide, by decide⟩, ⟨by decide, by decide⟩,
    (summary_testing_le_total exDiamond).2.2.1
      { numInternal := 5, numExternal := 7, numTesting := 2 } exDiamond ∅
      ⟨by decide, by decide⟩ ⟨by decide, by decide⟩ ⟨by decide, by decide⟩,
    by decide, (summary_testing_le_total exDiamond).2.2.2 (by decide)⟩

/-- C18: for every dependency tree in which all proper descendants of the root
have pairwise distinct names, the summary total equals the number of proper
descendants, which is the number of lines `writePkg` writes for the root minus
one when the display strings have no newline; internal, external and testing
are the plain counts of descendants with Internal true, Internal false and Test
true. -/
theorem summary_of_distinct_names (display : Pkg → String) (root : Pkg)
    (h : ((nodesDeps root.Deps).map Pkg.Name).Nodup) :
    (pkgSummary root).1.numInternal + (pkgSummary root).1.numExternal
      = (nodesDeps root.Deps).length ∧
    ((∀ q ∈ nodes root, '\n' ∉ (display q).data) →
      (lines (writePkg display root 0 false)).length = (nodesDeps root.Deps).length + 1) ∧
    (pkgSummary root).1.numInternal = (nodesDeps root.Deps).countP (fun p => p.Internal) ∧
    (pkgSummary root).1.numExternal = (nodesDeps root.Deps).countP (fun p => !p.Internal) ∧
    (pkgSummary root).1.numTesting = (nodesDeps root.Deps).countP (fun p => p.Test) := by
  have hv := visitDeps_of_nodup root.Deps ∅ h (fun q _ => Finset.not_mem_empty _)
  have hc := collectSummaryDeps_counts
    { numInternal := 0, numExternal := 0, numTesting := 0 } root.Deps ∅
  rw [hv] at hc
  simp only [Nat.zero_add] at hc
  have hlen : (nodes root).length = (nodesDeps root.Deps).length + 1 := by
    cases root with
    | mk name internal test deps => simp [nodes, Pkg.Deps]
  have hsplit := List.length_eq_countP_add_countP (fun p : Pkg => p.Internal)
    (nodesDeps root.Deps)
  refine ⟨?_, fun hd => ?_, hc.1, hc.2.1, hc.2.2⟩
  · have h1 := hc.1
    have h2 := hc.2.1
    simp only [pkgSummary] at h1 h2 ⊢
    rw [h1, h2, hsplit]
    simp
  · rw [writePkg_lines_length display root 0 false hd, hlen]

/-- Witness for C18: a tree with three descendants of distinct names. -/
theorem summary_of_distinct_names_witness :
    ((nodesDeps exDistinct.Deps).map Pkg.Name).Nodup ∧
    ((pkgSummary exDistinct).1.numInternal + (pkgSummary exDistinct).1.numExternal
      = (nodesDeps exDistinct.Deps).length ∧
    ((∀ q ∈ nodes exDistinct, '\n' ∉ (Pkg.Name q).data) →
      (lines (writePkg Pkg.Name exDistinct 0 false)).length
        = (nodesDeps exDistinct.Deps).length + 1) ∧
    (pkgSummary exDistinct).1.numInternal
      = (nodesDeps exDistinct.Deps).countP (fun p => p.Internal) ∧
    (pkgSummary exDistinct).1.numExternal
      = (nodesDeps exDistinct.Deps).countP (fun p => !p.Internal) ∧
    (pkgSummary exDistinct).1.numTesting
      = (nodesDeps exDistinct.Deps).countP (fun p => p.Test)) :=
  ⟨by decide, summary_of_distinct_names Pkg.Name exDistinct (by decide)⟩

/-- C19: listing the same dependencies again changes nothing. For every root
name and flags and every list of children cs, the summary of a root with
children cs ++ cs equals the summary of the root with children cs: the three
counters, the total, the visited set and the sentence written are the same. -/
theorem summary_of_repeated_children (name : String) (internal test : Bool)
    (cs : List Pkg) :
    pkgSummary (Pkg.mk name internal test (cs ++ cs))
      = pkgSummary (Pkg.mk name internal test cs) ∧
    (pkgSummary (Pkg.mk name internal test (cs ++ cs))).1.numInternal
        + (pkgSummary (Pkg.mk name internal test (cs ++ cs))).1.numExternal
      = (pkgSummary (Pkg.mk name internal test cs)).1.numInternal
        + (pkgSummary (Pkg.mk name internal test cs)).1.numExternal ∧
    writePkgSummary (Pkg.mk name internal test (cs ++ cs))
      = writePkgSummary (Pkg.mk name internal test cs) := by
  have h : pkgSummary (Pkg.mk name internal test (cs ++ cs))
      = pkgSummary (Pkg.mk name internal test cs) := by
    simp only [pkgSummary, Pkg.Deps]
    rw [collectSummaryDeps_append]
    exact collectSummaryDeps_of_all_mem _ cs _ (collectSummaryDeps_names_mem _ cs _)
  refine ⟨h, by rw [h], ?_⟩
  simp only [writePkgSummary, h]

/-- The fail-fast structure of `handlePkgs`, as text. For every Resolver and
every list of requested roots, if the first root whose resolution fails is at
index i (the resolutions before index i give no error and the one at index i
gives the error err), then the root at index i is the one named in the notice,
the output is the normal output of roots 0..i-1 in order followed by the text
of the notice with its newline, the error returned is err, and the roots after
index i contribute nothing (the result is that of the list cut after index i).
If no resolution fails, the output is the normal output of all roots in order
and no error is returned. With two roots where the first fails, the output is
the notice alone, one line when the name and the error detail have no
newline. Whether the notice starts a line of its own is not stated here: it
follows directly what was written before it. -/
theorem handlePkgs_fail_fast {σ : Type} (T : Tree σ) (display : Pkg → String)
    (render : JSON → String) (t : σ) (pkgs : List String) (outputJSON : Bool) :
    (∀ (i : Nat) (pkg err : String) (root : Pkg),
      (∀ e ∈ (resolvedRoots T t pkgs).take i, e.err = none) →
      (resolvedRoots T t pkgs)[i]? = some { pkg := pkg, err := some err, root := root } →
      pkgs[i]? = some pkg ∧
      handlePkgs T display render t pkgs outputJSON =
        (concat (((resolvedRoots T t pkgs).take i).map
            fun e => rootOutput display render outputJSON e.root) ++
          ("'" ++ pkg ++ "': FATAL: " ++ err ++ "\n"), some err) ∧
      handlePkgs T display render t pkgs outputJSON =
        handlePkgs T display render t (pkgs.take (i + 1)) outputJSON) ∧
    ((∀ e ∈ resolvedRoots T t pkgs, e.err = none) →
      handlePkgs T display render t pkgs outputJSON =
        (concat ((resolvedRoots T t pkgs).map
          fun e => rootOutput display render outputJSON e.root), none)) ∧
    (∀ (a b err : String), (T.Resolve t a).2 = some err →
      handlePkgs T display render t [a, b] outputJSON
        = ("'" ++ a ++ "': FATAL: " ++ err ++ "\n", some err) ∧
      ('\n' ∉ a.data → '\n' ∉ err.data →
        lines (handlePkgs T display render t [a, b] outputJSON).1
          = ["'" ++ a ++ "': FATAL: " ++ err])) := by
  refine ⟨?_, handlePkgs_no_failure T display render outputJSON pkgs t, ?_⟩
  · intro i pkg err root hpre hi
    obtain ⟨h1, h2⟩ :=
      handlePkgs_first_failure T display render outputJSON pkgs t i pkg err root hpre hi
    refine ⟨h1, h2, ?_⟩
    have htake : ((resolvedRoots T t pkgs).take (i + 1)).take i
        = (resolvedRoots T t pkgs).take i := by
      rw [List.take_take]
      congr 1
      omega
    have hpre2 : ∀ e ∈ (resolvedRoots T t (pkgs.take (i + 1))).take i, e.err = none := by
      rw [resolvedRoots_take, htake]
      exact hpre
    have hi2 : (resolvedRoots T t (pkgs.take (i + 1)))[i]?
        = some { pkg := pkg, err := some err, root := root } := by
      rw [resolvedRoots_take, List.getElem?_take_of_lt (Nat.lt_succ_self i)]
      exact hi
    obtain ⟨_, h3⟩ := handlePkgs_first_failure T display render outputJSON
      (pkgs.take (i + 1)) t i pkg err root hpre2 hi2
    rw [h2, h3, resolvedRoots_take, htake]
  · intro a b err ha
    have hout := handlePkgs_cons_err T display render t a [b] outputJSON err ha
    refine ⟨hout, fun hna hne => ?_⟩
    rw [hout]
    apply lines_line
    simp only [String.data_append, List.mem_append, not_or]
    exact ⟨⟨⟨by decide, hna⟩, by decide⟩, hne⟩

/-- An instance of the fail-fast structure: the roots `a`, `bad`, `c`, of which
the second fails. -/
theorem handlePkgs_fail_fast_witness :
    (∀ e ∈ (resolvedRoots exTree "" ["a", "bad", "c"]).take 1, e.err = none) ∧
    (resolvedRoots exTree "" ["a", "bad", "c"])[1]?
      = some { pkg := "bad", err := some "cannot find package", root := exTree.Root "bad" } ∧
    (["a", "bad", "c"][1]? = some "bad" ∧
      handlePkgs exTree Pkg.Name (fun _ => "") "" ["a", "bad", "c"] false =
        (concat (((resolvedRoots exTree "" ["a", "bad", "c"]).take 1).map
            fun e => rootOutput Pkg.Name (fun _ => "") false e.root) ++
          ("'" ++ "bad" ++ "': FATAL: " ++ "cannot find package" ++ "\n"),
          some "cannot find package") ∧
      handlePkgs exTree Pkg.Name (fun _ => "") "" ["a", "bad", "c"] false =
        handlePkgs exTree Pkg.Name (fun _ => "") "" (["a", "bad", "c"].take (1 + 1)) false) :=
  ⟨by decide, rfl,
    (handlePkgs_fail_fast exTree Pkg.Name (fun _ => "") "" ["a", "bad", "c"] false).1
      1 "bad" "cannot find package" (exTree.Root "bad") (by decide) rfl⟩

/-- C12, evaluated where the code departs from it: the roots `a`, `bad`, `c` in
tree mode, of which `a` resolves and `bad` fails. The order of the output and
the error returned are as the claim says, and nothing is written for `c`; but
`writePkgSummary` ends the sentence of `a` without a newline, so the notice is
not a line of the output: the last line is the summary sentence followed by
the notice. -/
theorem handlePkgs_notice_shares_a_line :
    handlePkgs exTree Pkg.Name (fun _ => "") "" ["a", "bad", "c"] false
      = ("a\n  └ shared\n1 dependencies (0 internal, 1 external, 0 testing)." ++
          "'bad': FATAL: cannot find package\n", some "cannot find package") ∧
    lines (handlePkgs exTree Pkg.Name (fun _ => "") "" ["a", "bad", "c"] false).1
      = ["a", "  └ shared",
         "1 dependencies (0 internal, 1 external, 0 testing).'bad': FATAL: cannot find package"] ∧
    "'bad': FATAL: cannot find package"
      ∉ lines (handlePkgs exTree Pkg.Name (fun _ => "") "" ["a", "bad", "c"] false).1 := by
  decide

/-- C13, evaluated where the code departs from it: two roots `a` and `b`, each
with the single dependency `shared`, in tree mode. Each tree has 2 nodes, so
the claim gives 2 + 2 + 2 = 6 lines; `writePkgSummary` ends its sentence
without a newline, so the first summary sentence and the first tree line of the
second root are on one line and the output has 5 lines. -/
theorem handlePkgs_two_roots_share_a_line :
    (handlePkgs exTree Pkg.Name (fun _ => "") "" ["a", "b"] false).1
      = "a\n  └ shared\n1 dependencies (0 internal, 1 external, 0 testing).b\n  └ shared\n" ++
        "1 dependencies (0 internal, 1 external, 0 testing)." ∧
    lines (handlePkgs exTree Pkg.Name (fun _ => "") "" ["a", "b"] false).1
      = ["a", "  └ shared", "1 dependencies (0 internal, 1 external, 0 testing).b",
         "  └ shared", "1 dependencies (0 internal, 1 external, 0 testing)."] ∧
    (lines (handlePkgs exTree Pkg.Name (fun _ => "") "" ["a", "b"] false).1).length = 5 ∧
    (nodes (exTree.Root "a")).length + (nodes (exTree.Root "b")).length + 2 = 6 := by
  decide

/-- C14, as stated, fails in its last clause: under a deterministic Resolver
that resolves every name, the package `Y` is in the tree of root `a` (below the
second `X`) and in the tree of root `b`, so both roots depend on it; it is
counted for `b` but not for `a`, whose summary reports 1 dependency, because
the second `X` of `a` is skipped together with its child. -/
theorem handlePkgs_shared_dependency_not_counted :
    Deterministic exTreeHidden ∧
    (∀ pkg ∈ ["a", "b"], (exTreeHidden.Resolve "" pkg).2 = none) ∧
    "Y" ∈ namesDeps (exTreeHidden.Root (exTreeHidden.Resolve "" "a").1).Deps ∧
    "Y" ∈ namesDeps (exTreeHidden.Root (exTreeHidden.Resolve "" "b").1).Deps ∧
    "Y" ∉ (pkgSummary (exTreeHidden.Root (exTreeHidden.Resolve "" "a").1)).2 ∧
    "Y" ∈ (pkgSummary (exTreeHidden.Root (exTreeHidden.Resolve "" "b").1)).2 ∧
    (handlePkgs exTreeHidden Pkg.Name (fun _ => "") "" ["a", "b"] false).1
      = "a\n  ├ X\n  └ X\n    └ Y\n1 dependencies (0 internal, 1 external, 0 testing)." ++
        "b\n  └ Y\n1 dependencies (0 internal, 1 external, 0 testing)." :=
  ⟨fun _ _ _ => ⟨rfl, rfl⟩, by decide, by decide, by decide, by decide, by decide, by decide⟩

/-- C14, amended: no state crosses root boundaries. For a deterministic
Resolver under which all roots resolve, the tree-mode output of `handlePkgs`
on ps ++ qs is the output on ps followed by the output on qs, and it is the
concatenation, over the roots in order, of the rendered tree and the summary
sentence of that root alone; so a root requested twice gets the same summary
sentence twice. The visited set of `writePkgSummary` starts empty for every
root: when the traversal ends it holds only names of that root's descendants;
it holds the name of every direct dependency of the root; and it holds the name
of every descendant when the root's tree is one in which repeats add nothing.
So a package that two roots both depend on is counted in the summary of each
root of which it is a direct dependency or whose tree is one in which repeats
add nothing, whatever the other roots, as for the roots `a` and `b` that both
depend on `shared`. -/
theorem handlePkgs_no_shared_state {σ : Type} (T : Tree σ) (display : Pkg → String)
    (render : JSON → String) (t : σ) (ps qs : List String)
    (hdet : Deterministic T) (hok : ∀ pkg ∈ ps ++ qs, (T.Resolve t pkg).2 = none) :
    (handlePkgs T display render t (ps ++ qs) false).1
      = (handlePkgs T display render t ps false).1 ++
        (handlePkgs T display render t qs false).1 ∧
    (handlePkgs T display render t (ps ++ qs) false).1
      = concat ((ps ++ qs).map fun pkg =>
          writePkg display (T.Root (T.Resolve t pkg).1) 0 false ++
            writePkgSummary (T.Root (T.Resolve t pkg).1)) ∧
    (∀ pkg ∈ ps ++ qs, (handlePkgs T display render t [pkg, pkg] false).1
      = (writePkg display (T.Root (T.Resolve t pkg).1) 0 false ++
            writePkgSummary (T.Root (T.Resolve t pkg).1)) ++
        (writePkg display (T.Root (T.Resolve t pkg).1) 0 false ++
            writePkgSummary (T.Root (T.Resolve t pkg).1))) ∧
    (∀ root : Pkg, (pkgSummary root).2 ⊆ namesDeps root.Deps ∧
      (∀ c ∈ root.Deps, c.Name ∈ (pkgSummary root).2) ∧
      (repeatsAddNothing ∅ (nodesDeps root.Deps) = true →
        (pkgSummary root).2 = namesDeps root.Deps)) ∧
    (handlePkgs exTree Pkg.Name render "" ["a", "b"] false).1
      = "a\n  └ shared\n1 dependencies (0 internal, 1 external, 0 testing)." ++
        "b\n  └ shared\n1 dependencies (0 internal, 1 external, 0 testing)." := by
  have hps : ∀ pkg ∈ ps, (T.Resolve t pkg).2 = none :=
    fun pkg h => hok pkg (List.mem_append_left _ h)
  have hqs : ∀ pkg ∈ qs, (T.Resolve t pkg).2 = none :=
    fun pkg h => hok pkg (List.mem_append_right _ h)
  have hall := handlePkgs_deterministic T display render false t hdet (ps ++ qs) hok t
  refine ⟨?_, ?_, ?_, ?_, ?_⟩
  · rw [hall, handlePkgs_deterministic T display render false t hdet ps hps t,
      handlePkgs_deterministic T display render false t hdet qs hqs t]
    simp only [List.map_append, concat_append]
  · rw [hall]
    simp [rootOutput]
  · intro pkg hpkg
    have hpair : ∀ q ∈ [pkg, pkg], (T.Resolve t q).2 = none := by
      intro q hq
      have : q = pkg := by simpa using hq
      exact this ▸ hok pkg hpkg
    rw [handlePkgs_deterministic T display render false t hdet [pkg, pkg] hpair t]
    simp [rootOutput, concat]
  · intro root
    refine ⟨?_, collectSummaryDeps_names_mem _ root.Deps ∅, fun hr => ?_⟩
    · have h := (collectSummaryDeps_inv
        { numInternal := 0, numExternal := 0, numTesting := 0 } root.Deps ∅).2.1
      simpa [pkgSummary] using h
    · have h1 := collectSummaryDeps_set_of_repeatsAddNothing
        { numInternal := 0, numExternal := 0, numTesting := 0 } root.Deps ∅ hr
      simpa [pkgSummary] using h1
  · have hexok : ∀ q ∈ ["a", "b"], (exTree.Resolve "" q).2 = none := by decide
    rw [handlePkgs_deterministic exTree Pkg.Name render false "" (fun _ _ _ => ⟨rfl, rfl⟩)
      ["a", "b"] hexok ""]
    rfl

/-- Witness for C14 amended: the roots `a` and `b` under the example Resolver. -/
theorem handlePkgs_no_shared_state_witness :
    Deterministic exTree ∧ (∀ pkg ∈ ["a"] ++ ["b"], (exTree.Resolve "" pkg).2 = none) ∧
    (handlePkgs exTree Pkg.Name (fun _ => "") "" (["a"] ++ ["b"]) false).1
      = (handlePkgs exTree Pkg.Name (fun _ => "") "" ["a"] false).1 ++
        (handlePkgs exTree Pkg.Name (fun _ => "") "" ["b"] false).1 :=
  ⟨fun _ _ _ => ⟨rfl, rfl⟩, by decide,
    (handlePkgs_no_shared_state exTree Pkg.Name (fun _ => "") "" ["a"] ["b"]
      (fun _ _ _ => ⟨rfl, rfl⟩) (by decide)).1⟩

/-- C15: for every dependency tree, serialising it to its document and parsing
the document back reconstructs the same tree: the same name, internal flag and
test flag at every node and the same children in the same order. The document
of a node is an object with the fields `name`, `internal`, `test` and
`children`, the last an array holding the documents of the children in order,
one per child. -/
theorem json_round_trip (p : Pkg) :
    fromJSON (toJSON p) = some p ∧
    toJSON p = JSON.obj [("name", JSON.str p.Name), ("internal", JSON.bool p.Internal),
      ("test", JSON.bool p.Test), ("children", JSON.arr (p.Deps.map toJSON))] ∧
    (p.Deps.map toJSON).length = p.Deps.length ∧
    (∀ render : JSON → String, writePkgJSON render p = render (toJSON p)) := by
  refine ⟨fromJSON_toJSON p, ?_, List.length_map _ _, fun _ => rfl⟩
  cases p with
  | mk name internal test deps =>
    simp [toJSON, toJSONList_eq_map, Pkg.Name, Pkg.Internal, Pkg.Test, Pkg.Deps]

end Depth
